import Mathlib

/-! # Video delay system: the shared frame buffer of `Delay_Cli/src/delay_cli.cpp`

A shallow embedding of the delay buffer of `delay_cli.cpp`: the `std::list<FrameNode>`
shared by `capture_frames`, `update_frames`, `update_displays`, `display_frames` and
`cleanup`, together with the `CaptureDisplay` cursors into it.

Conventions of the embedding.

* A time point of `std::chrono::steady_clock` is an `Int` number of clock ticks; a
  `clock_resolution` duration is an `Int` number of microseconds.  The parameter `k` of the
  functions below is the number of clock ticks in one microsecond (1000 for a nanosecond
  clock), so `time_point + duration` is `t + k * d` and `duration_cast<clock_resolution>`
  of a tick difference is the division by `k` that truncates toward zero.  Both
  representations are 64-bit signed integers: the conversion of the delay to clock ticks
  and the sum `time_stamp + delay` of line 205 are taken modulo `2 ^ 64` (`wrap64`), the
  result the compiled program computes where C++ leaves signed overflow undefined.  Clock
  reads and their differences are far inside the range and are not wrapped.
* A `std::list` node is named by its sequence number: the number of `push_back` calls that
  came before its own.  `System.removed` counts the `pop_front` calls so far, so the node
  with sequence number `i` is `frame_buffer[i - removed]` when `removed ≤ i`, the iterator
  `frame_buffer.begin()` is `removed` and `frame_buffer.end()` is
  `removed + frame_buffer.length`.  A list iterator and a `FrameNode*` are sequence numbers.
* The payload `std::shared_ptr<cv::Mat>` is a `Nat` naming the image.
* One iteration of a thread's `while (run.load())` loop is one atomic step of the system.
  Where C++ leaves behaviour undefined (dereferencing an iterator that is not in the list,
  `front()` or `back()` of an empty list) the step leaves the affected object untouched.
-/

namespace DelayCli

/-- The class `FrameNode`: a shared frame and the time stamp of its creation. -/
structure FrameNode where
  frame : Nat
  time_stamp : Int
  deriving DecidableEq, Repr

/-- The class `CaptureDisplay`, with all its data members.  `delay`, `real_delay` and
`frame_refresh_period` are in microseconds, `last_update_time` is a time point,
`frame_node` is the list iterator. -/
structure CaptureDisplay where
  name : String
  delay : Int
  real_delay : Int
  frame_refresh_period : Int
  last_update_time : Int
  frame_node : Nat
  deriving DecidableEq, Repr

/-- The variables shared by the threads of `main`, and the local `prev_frame` of
`update_frames`.  `shown` lists the `cv::imshow` calls made so far as pairs
(display index, sequence number of the node shown). -/
structure System where
  removed : Nat
  frame_buffer : List FrameNode
  displays : List CaptureDisplay
  last_display : Nat
  prev_frame : Nat
  run : Bool
  read : Bool
  updated : Bool
  shown : List (Nat × Nat)
  deriving DecidableEq, Repr

/-- The iterator `frame_buffer.end()`. -/
def System.end_pos (s : System) : Nat := s.removed + s.frame_buffer.length

/-- The node an iterator with sequence number `i` refers to, if it is in the list. -/
def node_at (removed : Nat) (frame_buffer : List FrameNode) (i : Nat) : Option FrameNode :=
  if i < removed then none else frame_buffer[i - removed]?

/-- The node a sequence number refers to in the state `s`. -/
def System.node (s : System) (i : Nat) : Option FrameNode :=
  node_at s.removed s.frame_buffer i

/-! ## `update_displays` (lines 198-212) -/

/-- The value of a 64-bit signed integer computation whose exact result is `x`: the
representative of `x` modulo `2 ^ 64` in the range from `-2 ^ 63` to `2 ^ 63 - 1`. -/
def wrap64 (x : Int) : Int :=
  (x + 9223372036854775808) % 18446744073709551616 - 9223372036854775808

/-- The inner `while` loop of `update_displays` for one display whose `frame_node` is at
sequence number `pos` and refers to `cur`; `rest` are the nodes after it, so `it != end`
is `rest ≠ []`.  `kd` is the display's delay converted to clock ticks and `T` is
`frame_start`.  The test reads the time stamp of the node `frame_node` is on and adds the
delay to it in 64 bits. -/
def advance_from (kd T : Int) : FrameNode → List FrameNode → Nat → Nat
  | _, [], pos => pos
  | cur, nxt :: rest, pos =>
    if wrap64 (cur.time_stamp + kd) < T then advance_from kd T nxt rest (pos + 1) else pos

/-- The body of the `for` loop of `update_displays` for one display: the new value of
`display.frame_node`.  The delay, in microseconds, is converted to clock ticks in 64 bits
before it is added to the time stamp. -/
def advance_pos (k : Nat) (removed : Nat) (frame_buffer : List FrameNode) (T : Int)
    (d : CaptureDisplay) : Nat :=
  if d.frame_node < removed then d.frame_node
  else
    match frame_buffer.drop (d.frame_node - removed) with
    | [] => d.frame_node
    | cur :: rest => advance_from (wrap64 ((k : Int) * d.delay)) T cur rest d.frame_node

/-- The display after the body of the `for` loop of `update_displays`. -/
def advance_display (k : Nat) (removed : Nat) (frame_buffer : List FrameNode) (T : Int)
    (d : CaptureDisplay) : CaptureDisplay :=
  { d with frame_node := advance_pos k removed frame_buffer T d }

/-- One iteration of the `while (run.load())` loop of `update_displays`, with
`frame_start = T`. -/
def update_displays (k : Nat) (s : System) (T : Int) : System :=
  if s.run then
    { s with displays := s.displays.map (advance_display k s.removed s.frame_buffer T) }
  else s

/-! ## `capture_frames` (lines 144-171) and `update_frames` (lines 177-192) -/

/-- One iteration of the loop of `capture_frames`.  `grab` and `ret` are the results of
`capture.grab()` and `capture.retrieve`, `frame` is the new `frame_ptr`, `start_time` is the
clock read at the top of the iteration and `now1`, `now2` are the two clock reads in the
time stamp `clock::now() - (clock::now() - start_time)`. -/
def capture_frames (s : System) (grab ret : Bool) (frame : Nat) (start_time now1 now2 : Int) :
    System :=
  if s.run then
    if !grab then s
    else
      let s1 := { s with frame_buffer := s.frame_buffer ++ [FrameNode.mk frame (now1 - (now2 - start_time))] }
      if !ret then { s1 with run := false }
      else { s1 with read := true }
  else s

/-- One iteration of the loop of `update_frames`; `now` is the clock read of the
`push_back`. -/
def update_frames (s : System) (now : Int) : System :=
  if s.run then
    let prev_frame :=
      if s.read then
        match s.frame_buffer.getLast? with
        | some n => n.frame
        | none => s.prev_frame
      else s.prev_frame
    { s with
      prev_frame := prev_frame
      read := false
      frame_buffer := s.frame_buffer ++ [FrameNode.mk prev_frame now] }
  else s

/-! ## `cleanup` (lines 218-226) -/

/-- The inner `while` loop of `cleanup`:
`while (&frame_buffer.front() != last_display && updated.load() && !frame_buffer.empty())
frame_buffer.pop_front();` on the list whose front has sequence number `removed`. -/
def cleanup_loop (last_display : Nat) (updated : Bool) : Nat → List FrameNode → Nat × List FrameNode
  | removed, [] => (removed, [])
  | removed, n :: rest =>
    if removed ≠ last_display ∧ updated = true then
      cleanup_loop last_display updated (removed + 1) rest
    else (removed, n :: rest)

/-- One iteration of the outer loop of `cleanup`. -/
def cleanup (s : System) : System :=
  if s.run then
    let r := cleanup_loop s.last_display s.updated s.removed s.frame_buffer
    { s with removed := r.1, frame_buffer := r.2, updated := false }
  else s

/-! ## `display_frames` (lines 232-286) -/

/-- The condition of line 239 negated: the display is not skipped in a poll with
`frame_start = T`. -/
def refresh_due (k : Nat) (T : Int) (d : CaptureDisplay) : Bool :=
  !decide (Int.tdiv (T - d.last_update_time) (k : Int) < d.frame_refresh_period)

/-- The `for` loop of `display_frames` from index `x` on, over the displays not yet
visited.  `size` is `displays.size()`, `end_pos` is `frame_buffer.end()`, `now x` is the
clock read that sets `last_update_time` of display `x`.  The state threaded through is
(`last_display`, `updated`, `shown`). -/
def display_loop (k : Nat) (size end_pos : Nat) (T : Int) (now : Nat → Int) :
    Nat → List CaptureDisplay → Nat × Bool × List (Nat × Nat) →
    List CaptureDisplay × (Nat × Bool × List (Nat × Nat))
  | _, [], st => ([], st)
  | x, d :: ds, (last_display, updated, shown) =>
    if refresh_due k T d = false then
      let r := display_loop k size end_pos T now (x + 1) ds (last_display, updated, shown)
      (d :: r.1, r.2)
    else if d.frame_node ≠ end_pos then
      let st :=
        if x = size - 1 then (d.frame_node, true, shown ++ [(x, d.frame_node)])
        else (last_display, updated, shown ++ [(x, d.frame_node)])
      let r := display_loop k size end_pos T now (x + 1) ds st
      ({ d with last_update_time := now x } :: r.1, r.2)
    else
      let r := display_loop k size end_pos T now (x + 1) ds (last_display, updated, shown)
      (d :: r.1, r.2)

/-- One iteration of the loop of `display_frames`: the `for` loop over the displays, then
the key listener.  `key` is `cv::waitKey(1) & 0xFF`; the key `q` (113) clears `run`, the
keys `s` and `t` only write files. -/
def display_frames (k : Nat) (s : System) (T : Int) (now : Nat → Int) (key : Nat) : System :=
  if s.run then
    let r := display_loop k s.displays.length s.end_pos T now 0 s.displays
      (s.last_display, s.updated, s.shown)
    { s with
      displays := r.1
      last_display := r.2.1
      updated := r.2.2.1
      shown := r.2.2.2
      run := if key = 113 then false else s.run }
  else s

/-! ## `main` (lines 448-480) and the interleavings of the threads -/

/-- The state `main` builds before it starts the threads: `displays` is the vector after
`std::sort`, `frame` the initial frame and `now` its time stamp.  Every display is put on
`frame_buffer.begin()`, `last_display` is `&frame_buffer.front()`, and `update_frames`
starts from a copy of the initial frame. -/
def main_init (displays : List CaptureDisplay) (frame : Nat) (now : Int) : System :=
  { removed := 0
    frame_buffer := [FrameNode.mk frame now]
    displays := displays.map (fun d => { d with frame_node := 0 })
    last_display := 0
    prev_frame := frame
    run := true
    read := false
    updated := false
    shown := [] }

/-- One whole iteration of one of the five threads. -/
inductive Event where
  | capture (grab ret : Bool) (frame : Nat) (start_time now1 now2 : Int)
  | tick (now : Int)
  | advance (frame_start : Int)
  | present (frame_start : Int) (now : Nat → Int) (key : Nat)
  | reap

/-- The effect of one event on the system. -/
def step (k : Nat) (s : System) : Event → System
  | .capture grab ret frame start_time now1 now2 =>
    capture_frames s grab ret frame start_time now1 now2
  | .tick now => update_frames s now
  | .advance T => update_displays k s T
  | .present T now key => display_frames k s T now key
  | .reap => cleanup s

/-- The state after a sequence of whole steps, in the order they take the buffer. -/
def exec (k : Nat) (s : System) (evs : List Event) : System :=
  evs.foldl (step k) s

/-! ## The advance rule as the specification words it -/

/-- The advance rule in the words of the specification: peek the record following the
cursor and, while that next record has `timestamp + D ≤ T`, move the cursor to it.
`after` are the records following the cursor. -/
def spec_advance_from (kd T : Int) : List FrameNode → Nat → Nat
  | [], pos => pos
  | nxt :: rest, pos =>
    if nxt.time_stamp + kd ≤ T then spec_advance_from kd T rest (pos + 1) else pos

/-- The cursor position the specification's advance rule gives for one display. -/
def spec_advance_pos (k : Nat) (removed : Nat) (frame_buffer : List FrameNode) (T : Int)
    (d : CaptureDisplay) : Nat :=
  if d.frame_node < removed then d.frame_node
  else spec_advance_from ((k : Int) * d.delay) T
    (frame_buffer.drop (d.frame_node - removed + 1)) d.frame_node

/-! ## Invariants of the reachable states -/

/-- The part of a display that `update_displays` and `cleanup` depend on. -/
def CaptureDisplay.core (d : CaptureDisplay) : Int × Nat := (d.delay, d.frame_node)

/-- The invariant of the states reachable from `main_init` while no sum
`time_stamp + delay` leaves the 64-bit range: there is a display, the displays are in
ascending order of delay (the `std::sort` of line 450) and in descending order of cursor,
`last_display` is in the list and not after any cursor, and every cursor is on a node of
the list. -/
structure Inv (s : System) : Prop where
  nonempty : s.displays ≠ []
  sorted : s.displays.Pairwise (fun a b => a.delay ≤ b.delay ∧ b.frame_node ≤ a.frame_node)
  head_le : s.removed ≤ s.last_display
  last_le : ∀ d ∈ s.displays, s.last_display ≤ d.frame_node
  in_log : ∀ d ∈ s.displays, d.frame_node < s.removed + s.frame_buffer.length

/-- Every record a cursor has gone past had `time_stamp + delay < T`. -/
def Passed (k : Nat) (s : System) (T : Int) : Prop :=
  ∀ d ∈ s.displays, ∀ i n, i < d.frame_node → s.node i = some n →
    n.time_stamp + (k : Int) * d.delay < T

/-- Every advance pass of the trace ran at a time not after `T`. -/
def advances_by (T : Int) : List Event → Bool
  | [] => true
  | Event.advance t :: evs => decide (t ≤ T) && advances_by T evs
  | _ :: evs => advances_by T evs

/-- The `imshow` calls of the `for` loop of `display_frames` from index `x` on. -/
def presented_by (k : Nat) (end_pos : Nat) (T : Int) : Nat → List CaptureDisplay → List (Nat × Nat)
  | _, [] => []
  | x, d :: ds =>
    if refresh_due k T d = true ∧ d.frame_node ≠ end_pos then
      (x, d.frame_node) :: presented_by k end_pos T (x + 1) ds
    else presented_by k end_pos T (x + 1) ds

/-- The payload of the latest record `capture_frames` appended in a trace that leaves
`run` set (every successful grab appends), `f0` if there is none. -/
def last_ingested (f0 : Nat) : List Event → Nat
  | [] => f0
  | Event.capture true _ frame _ _ _ :: evs => last_ingested frame evs
  | _ :: evs => last_ingested f0 evs

/-- Every time stamp appended by the trace is at least `t`, the latest time stamp appended
before it: `capture_frames` appends `now1 - (now2 - start_time)`, `update_frames` appends
its clock read. -/
def stamps_ordered : Int → List Event → Bool
  | _, [] => true
  | t, Event.capture true _ _ start_time now1 now2 :: evs =>
    decide (t ≤ now1 - (now2 - start_time)) && stamps_ordered (now1 - (now2 - start_time)) evs
  | t, Event.tick now :: evs => decide (t ≤ now) && stamps_ordered now evs
  | t, _ :: evs => stamps_ordered t evs

/-- The time stamps are non-decreasing from the head of the log to its tail. -/
def stamps_sorted (frame_buffer : List FrameNode) : Prop :=
  frame_buffer.Pairwise (fun a b => a.time_stamp ≤ b.time_stamp)

/-- Each cursor of `l2` is at or after the cursor of the same display in `l`. -/
def cursors_le (l l2 : List CaptureDisplay) : Prop :=
  l.length = l2.length ∧
    ∀ (i : Nat) (d d2 : CaptureDisplay),
      l[i]? = some d → l2[i]? = some d2 → d.frame_node ≤ d2.frame_node

/-- What `update_frames` will append next is the payload `f`: if `read` is set the tail
of the log carries `f`, otherwise `prev_frame` is `f`. -/
def ticker_ready (s : System) (f : Nat) : Prop :=
  if s.read = true then ∃ n, s.frame_buffer.getLast? = some n ∧ n.frame = f
  else s.prev_frame = f

/-- Two displays for the examples: delays 0 and 5 microseconds, refresh periods 2 and 4,
named `d0` and `d5`. -/
def two_displays : List CaptureDisplay :=
  [CaptureDisplay.mk "d0" 0 0 2 0 0, CaptureDisplay.mk "d5" 5 0 4 0 0]

/-- The initial state of the examples: `two_displays` and an initial frame 7 stamped 0. -/
def two_init : System := main_init two_displays 7 0

/-! ## The 64-bit range -/

/-- The exact sum `t + kd` is a 64-bit signed integer. -/
def sum_fits (t kd : Int) : Bool :=
  decide (-9223372036854775808 ≤ t + kd) && decide (t + kd < 9223372036854775808)

/-- For every display of `displays`, the time stamp `t` plus the display's delay in clock
ticks is a 64-bit signed integer. -/
def stamp_fits (k : Nat) (displays : List CaptureDisplay) (t : Int) : Bool :=
  displays.all (fun d => sum_fits t ((k : Int) * d.delay))

/-- Every time stamp the trace appends to the log is in the 64-bit range together with
every delay of `displays`. -/
def trace_fits (k : Nat) (displays : List CaptureDisplay) : List Event → Bool
  | [] => true
  | Event.capture true _ _ start_time now1 now2 :: evs =>
    stamp_fits k displays (now1 - (now2 - start_time)) && trace_fits k displays evs
  | Event.tick now :: evs => stamp_fits k displays now && trace_fits k displays evs
  | _ :: evs => trace_fits k displays evs

/-- In the state `s` no sum `time_stamp + delay` of line 205 overflows. -/
def Fits (k : Nat) (s : System) : Prop :=
  ∀ d ∈ s.displays, ∀ n ∈ s.frame_buffer,
    sum_fits n.time_stamp ((k : Int) * d.delay) = true

/-- The displays of `s` have delays of `displays`, and every record of the log of `s` is
in the 64-bit range together with every delay of `displays`. -/
def FitsInv (k : Nat) (displays : List CaptureDisplay) (s : System) : Prop :=
  (∀ d ∈ s.displays, ∃ d0 ∈ displays, d0.delay = d.delay) ∧
    ∀ n ∈ s.frame_buffer, stamp_fits k displays n.time_stamp = true

/-- The part of `Inv` that holds whatever the comparisons of `update_displays` return:
there is a display, `last_display` is in the list and not after the cursor of the last
display, and every cursor is before `frame_buffer.end()`. -/
structure WInv (s : System) : Prop where
  nonempty : s.displays ≠ []
  head_le : s.removed ≤ s.last_display
  last_lt : s.last_display < s.removed + s.frame_buffer.length
  last_le_last : ∀ z, s.displays.getLast? = some z → s.last_display ≤ z.frame_node
  in_log : ∀ d ∈ s.displays, d.frame_node < s.removed + s.frame_buffer.length

/-- The displays `main` builds (lines 440-444) from the entered delays 1 s and 1e10 s at
30 frames per second: `real_delay` is the entered delay in microseconds, `delay` is the
entered delay plus half of the 10 microsecond frame interval, computed in `double`
(`1e16 + 5` rounds to `1e16 + 4`), and the refresh period is `1 / 30` s. -/
def far_displays : List CaptureDisplay :=
  [CaptureDisplay.mk "1.000000" 1000005 1000000 33333 0 0,
    CaptureDisplay.mk "10000000000.000000" 10000000000000004 10000000000000000 33333 0 0]

/-- Two displays with the same delay 5 and the refresh periods 2 and 4. -/
def twin_displays : List CaptureDisplay :=
  [CaptureDisplay.mk "a" 5 0 2 0 0, CaptureDisplay.mk "b" 5 0 4 0 0]

/-! ## Lemmas on the 64-bit sum -/

theorem wrap64_of_fits (t kd : Int) (h : sum_fits t kd = true) :
    wrap64 (t + wrap64 kd) = t + kd := by
  simp only [sum_fits, Bool.and_eq_true, decide_eq_true_eq] at h
  unfold wrap64
  omega

theorem takeWhile_congr_mem {l : List FrameNode} {p q : FrameNode → Bool}
    (h : ∀ n ∈ l, p n = q n) : l.takeWhile p = l.takeWhile q := by
  induction l with
  | nil => rfl
  | cons a l ih =>
    have ha := h a (List.mem_cons_self _ _)
    have hl := ih (fun n hn => h n (List.mem_cons_of_mem _ hn))
    simp only [List.takeWhile_cons, ha, hl]

theorem node_at_mem {removed : Nat} {buf : List FrameNode} {i : Nat} {n : FrameNode}
    (h : node_at removed buf i = some n) : n ∈ buf := by
  unfold node_at at h
  split at h
  · exact absurd h (by simp)
  · exact List.getElem?_mem h

/-! ## Lemmas on the advance loop -/

theorem advance_from_eq_takeWhile (kd T : Int) (cur : FrameNode) (rest : List FrameNode)
    (pos : Nat) :
    advance_from kd T cur rest pos
      = pos + (((cur :: rest).dropLast).takeWhile
          (fun n => decide (wrap64 (n.time_stamp + kd) < T))).length := by
  induction rest generalizing cur pos with
  | nil => simp [advance_from]
  | cons nxt rest ih =>
    by_cases h : wrap64 (cur.time_stamp + kd) < T
    · simp only [advance_from, h, if_true, ih, List.dropLast_cons₂, List.takeWhile_cons,
        decide_True, List.length_cons]
      omega
    · simp [advance_from, h, List.takeWhile_cons]

theorem advance_from_bounds (kd T : Int) (cur : FrameNode) (rest : List FrameNode) (pos : Nat) :
    pos ≤ advance_from kd T cur rest pos ∧ advance_from kd T cur rest pos ≤ pos + rest.length := by
  induction rest generalizing cur pos with
  | nil => simp [advance_from]
  | cons nxt rest ih =>
    by_cases h : wrap64 (cur.time_stamp + kd) < T
    · have := ih nxt (pos + 1)
      simp only [advance_from, h, if_true, List.length_cons]
      omega
    · simp [advance_from, h]

theorem advance_from_passed (kd T : Int) (cur : FrameNode) (rest : List FrameNode) (pos : Nat)
    (i : Nat) (n : FrameNode) (hi : pos + i < advance_from kd T cur rest pos)
    (hn : (cur :: rest)[i]? = some n) : wrap64 (n.time_stamp + kd) < T := by
  induction rest generalizing cur pos i with
  | nil => simp [advance_from] at hi
  | cons nxt rest ih =>
    by_cases h : wrap64 (cur.time_stamp + kd) < T
    · simp only [advance_from, h, if_true] at hi
      cases i with
      | zero =>
        simp at hn
        subst hn
        exact h
      | succ i =>
        simp only [List.getElem?_cons_succ] at hn
        exact ih nxt (pos + 1) i (by omega) hn
    · simp [advance_from, h] at hi

theorem advance_from_stop (kd T : Int) (cur : FrameNode) (rest : List FrameNode) (pos : Nat) :
    advance_from kd T cur rest pos = pos + rest.length ∨
      ∃ n, (cur :: rest)[advance_from kd T cur rest pos - pos]? = some n ∧
        ¬ wrap64 (n.time_stamp + kd) < T := by
  induction rest generalizing cur pos with
  | nil => simp [advance_from]
  | cons nxt rest ih =>
    by_cases h : wrap64 (cur.time_stamp + kd) < T
    · simp only [advance_from, h, if_true, List.length_cons]
      have hb := advance_from_bounds kd T nxt rest (pos + 1)
      rcases ih nxt (pos + 1) with h1 | ⟨n, h1, h2⟩
      · left
        omega
      · right
        refine ⟨n, ?_, h2⟩
        have : advance_from kd T nxt rest (pos + 1) - pos
            = (advance_from kd T nxt rest (pos + 1) - (pos + 1)) + 1 := by omega
        rw [this, List.getElem?_cons_succ]
        exact h1
    · right
      exact ⟨cur, by simp [advance_from, h], h⟩

theorem advance_pos_ge (k removed : Nat) (buf : List FrameNode) (T : Int) (d : CaptureDisplay) :
    d.frame_node ≤ advance_pos k removed buf T d := by
  unfold advance_pos
  split
  · exact le_rfl
  · split
    · exact le_rfl
    · exact (advance_from_bounds _ _ _ _ _).1

theorem advance_pos_lt (k removed : Nat) (buf : List FrameNode) (T : Int) (d : CaptureDisplay)
    (h : d.frame_node < removed + buf.length) :
    advance_pos k removed buf T d < removed + buf.length := by
  unfold advance_pos
  split
  · exact h
  · split
    · exact h
    · rename_i cur rest hdrop
      have hlen := congrArg List.length hdrop
      simp only [List.length_drop, List.length_cons] at hlen
      have := (advance_from_bounds (wrap64 ((k : Int) * d.delay)) T cur rest d.frame_node).2
      omega

theorem advance_pos_passed (k removed : Nat) (buf : List FrameNode) (T : Int)
    (d : CaptureDisplay) (i : Nat) (n : FrameNode) (h1 : d.frame_node ≤ i)
    (h2 : i < advance_pos k removed buf T d) (hn : node_at removed buf i = some n) :
    wrap64 (n.time_stamp + wrap64 ((k : Int) * d.delay)) < T := by
  unfold advance_pos at h2
  split at h2
  · omega
  · split at h2
    · omega
    · rename_i hr cur rest hdrop
      have hir : ¬ i < removed := by omega
      simp only [node_at, hir, if_false] at hn
      apply advance_from_passed (wrap64 ((k : Int) * d.delay)) T cur rest d.frame_node
        (i - d.frame_node) n (by omega)
      rw [← hdrop, List.getElem?_drop]
      have : d.frame_node - removed + (i - d.frame_node) = i - removed := by omega
      rw [this]
      exact hn

theorem advance_pos_stop (k removed : Nat) (buf : List FrameNode) (T : Int) (d : CaptureDisplay)
    (h1 : removed ≤ d.frame_node) (h2 : d.frame_node < removed + buf.length) :
    advance_pos k removed buf T d + 1 = removed + buf.length ∨
      ∃ n, node_at removed buf (advance_pos k removed buf T d) = some n ∧
        ¬ wrap64 (n.time_stamp + wrap64 ((k : Int) * d.delay)) < T := by
  unfold advance_pos
  split
  · omega
  · split
    · rename_i hdrop
      have hlen := congrArg List.length hdrop
      simp only [List.length_drop, List.length_nil] at hlen
      omega
    · rename_i cur rest hdrop
      have hlen := congrArg List.length hdrop
      simp only [List.length_drop, List.length_cons] at hlen
      have hb := advance_from_bounds (wrap64 ((k : Int) * d.delay)) T cur rest d.frame_node
      rcases advance_from_stop (wrap64 ((k : Int) * d.delay)) T cur rest d.frame_node with h | ⟨n, h, h3⟩
      · left
        omega
      · right
        refine ⟨n, ?_, h3⟩
        have hir : ¬ advance_from (wrap64 ((k : Int) * d.delay)) T cur rest d.frame_node < removed := by
          omega
        simp only [node_at, hir, if_false]
        rw [← hdrop, List.getElem?_drop] at h
        have : d.frame_node - removed
            + (advance_from (wrap64 ((k : Int) * d.delay)) T cur rest d.frame_node - d.frame_node)
            = advance_from (wrap64 ((k : Int) * d.delay)) T cur rest d.frame_node - removed := by omega
        rw [this] at h
        exact h

/-! ## C1: the advance rule -/

/-- C1 (as stated, refuted): with the log `[0, 10]` (time stamps), a display of delay 5 on
the head and a pass at time 12, the specification's rule keeps the cursor on the head (the
next record has `10 + 5 > 12`), while `update_displays` moves it to the record with time
stamp 10, which does not satisfy `timestamp + D ≤ T`. -/
theorem advance_not_spec_rule :
    spec_advance_pos 1 0 [FrameNode.mk 0 0, FrameNode.mk 0 10] 12 (CaptureDisplay.mk "d5" 5 0 0 0 0) = 0
    ∧ advance_pos 1 0 [FrameNode.mk 0 0, FrameNode.mk 0 10] 12 (CaptureDisplay.mk "d5" 5 0 0 0 0) = 1
    ∧ node_at 0 [FrameNode.mk 0 0, FrameNode.mk 0 10]
        (advance_pos 1 0 [FrameNode.mk 0 0, FrameNode.mk 0 10] 12 (CaptureDisplay.mk "d5" 5 0 0 0 0))
        = some (FrameNode.mk 0 10)
    ∧ ¬ ((10 : Int) + ((1 : Nat) : Int) * 5 ≤ 12) := by
  decide

theorem advance_pos_eq_takeWhile (k removed : Nat) (buf : List FrameNode) (T : Int)
    (d : CaptureDisplay) (h : removed ≤ d.frame_node) :
    advance_pos k removed buf T d
      = d.frame_node + (((buf.drop (d.frame_node - removed)).dropLast).takeWhile
          (fun n => decide (wrap64 (n.time_stamp + wrap64 ((k : Int) * d.delay)) < T))).length := by
  unfold advance_pos
  have hr : ¬ d.frame_node < removed := by omega
  simp only [hr, if_false]
  split
  · rename_i hdrop
    simp [hdrop]
  · rename_i cur rest hdrop
    rw [hdrop]
    exact advance_from_eq_takeWhile _ _ _ _ _

/-- C1 (amended): in a state where no sum `timestamp + D` of a record of the log and a
display's delay leaves the 64-bit range, one advance pass of `update_displays` moves each
cursor forward exactly while the record the cursor is on has `timestamp + D < T` and is
not the tail: the cursor advances by the length of the longest run of such records,
counted from the cursor's record over the records before the tail. -/
theorem update_displays_cursor (k : Nat) (s : System) (T : Int) (hrun : s.run = true)
    (hc : ∀ d ∈ s.displays, s.removed ≤ d.frame_node)
    (hfit : ∀ d ∈ s.displays, ∀ n ∈ s.frame_buffer,
      sum_fits n.time_stamp ((k : Int) * d.delay) = true) :
    (update_displays k s T).displays
      = s.displays.map (fun d =>
          { d with frame_node := d.frame_node +
              (((s.frame_buffer.drop (d.frame_node - s.removed)).dropLast).takeWhile
                (fun n => decide (n.time_stamp + (k : Int) * d.delay < T))).length }) := by
  simp only [update_displays, hrun, if_true]
  apply List.map_congr_left
  intro d hd
  simp only [advance_display, advance_pos_eq_takeWhile k s.removed s.frame_buffer T d (hc d hd)]
  have e : ((s.frame_buffer.drop (d.frame_node - s.removed)).dropLast).takeWhile
        (fun n => decide (wrap64 (n.time_stamp + wrap64 ((k : Int) * d.delay)) < T))
      = ((s.frame_buffer.drop (d.frame_node - s.removed)).dropLast).takeWhile
        (fun n => decide (n.time_stamp + (k : Int) * d.delay < T)) := by
    apply takeWhile_congr_mem
    intro n hn
    have hmem : n ∈ s.frame_buffer :=
      List.mem_of_mem_drop (List.dropLast_subset _ hn)
    rw [wrap64_of_fits _ _ (hfit d hd n hmem)]
  rw [e]

/-- Witness for `update_displays_cursor`: the log with time stamps `[0, 10, 20, 30]` and
the two example displays, pass at time 22; the cursors end on records 3 and 2. -/
theorem update_displays_cursor_witness :
    (exec 1 two_init [Event.tick 10, Event.tick 20, Event.tick 30]).run = true ∧
    (∀ d ∈ (exec 1 two_init [Event.tick 10, Event.tick 20, Event.tick 30]).displays,
      (exec 1 two_init [Event.tick 10, Event.tick 20, Event.tick 30]).removed ≤ d.frame_node) ∧
    (∀ d ∈ (exec 1 two_init [Event.tick 10, Event.tick 20, Event.tick 30]).displays,
      ∀ n ∈ (exec 1 two_init [Event.tick 10, Event.tick 20, Event.tick 30]).frame_buffer,
        sum_fits n.time_stamp (((1 : Nat) : Int) * d.delay) = true) ∧
    (update_displays 1 (exec 1 two_init [Event.tick 10, Event.tick 20, Event.tick 30]) 22).displays
      = [CaptureDisplay.mk "d0" 0 0 2 0 3, CaptureDisplay.mk "d5" 5 0 4 0 2] :=
  ⟨by decide, by decide, by decide,
    (update_displays_cursor 1 (exec 1 two_init [Event.tick 10, Event.tick 20, Event.tick 30]) 22
      (by decide) (by decide) (by decide)).trans (by decide)⟩

/-! ## Lemmas on `cleanup` and `display_frames` -/

theorem cleanup_loop_eq (ld : Nat) (upd : Bool) (removed : Nat) (buf : List FrameNode)
    (h1 : removed ≤ ld) (h2 : ld < removed + buf.length) :
    cleanup_loop ld upd removed buf
      = (if upd = true then ld else removed,
          buf.drop ((if upd = true then ld else removed) - removed)) := by
  induction buf generalizing removed with
  | nil => simp at h2; omega
  | cons n rest ih =>
    cases upd with
    | false => simp [cleanup_loop]
    | true =>
      by_cases h : removed = ld
      · subst h
        simp [cleanup_loop]
      · have h3 : removed + 1 ≤ ld := by omega
        have h4 : ld < removed + 1 + rest.length := by
          simp only [List.length_cons] at h2
          omega
        have := ih (removed + 1) h3 h4
        simp only [if_true] at this
        simp only [cleanup_loop, h, ne_eq, not_false_eq_true, and_self, if_true, this]
        have h5 : ld - removed = (ld - (removed + 1)) + 1 := by omega
        rw [h5, List.drop_succ_cons]

theorem cleanup_loop_drop (ld : Nat) (upd : Bool) (removed : Nat) (buf : List FrameNode) :
    ∃ m, m ≤ buf.length ∧ cleanup_loop ld upd removed buf = (removed + m, buf.drop m) := by
  induction buf generalizing removed with
  | nil => exact ⟨0, le_rfl, by simp [cleanup_loop]⟩
  | cons n rest ih =>
    by_cases h : removed ≠ ld ∧ upd = true
    · obtain ⟨m, hm1, hm⟩ := ih (removed + 1)
      refine ⟨m + 1, by simpa using hm1, ?_⟩
      rw [cleanup_loop, if_pos h, hm, List.drop_succ_cons]
      congr 1
      omega
    · exact ⟨0, Nat.zero_le _, by rw [cleanup_loop, if_neg h]; simp⟩

theorem display_loop_skip (k size end_pos : Nat) (T : Int) (now : Nat → Int) (x : Nat)
    (d : CaptureDisplay) (ds : List CaptureDisplay) (st : Nat × Bool × List (Nat × Nat))
    (h : ¬ (refresh_due k T d = true ∧ d.frame_node ≠ end_pos)) :
    display_loop k size end_pos T now x (d :: ds) st
      = (d :: (display_loop k size end_pos T now (x + 1) ds st).1,
          (display_loop k size end_pos T now (x + 1) ds st).2) := by
  obtain ⟨ld, upd, sh⟩ := st
  rw [display_loop]
  by_cases h1 : refresh_due k T d = false
  · simp [h1]
  · have h2 : d.frame_node = end_pos := by
      by_contra h2
      exact h ⟨by simpa using h1, h2⟩
    simp [h1, h2]

theorem display_loop_show (k size end_pos : Nat) (T : Int) (now : Nat → Int) (x : Nat)
    (d : CaptureDisplay) (ds : List CaptureDisplay) (ld : Nat) (upd : Bool)
    (sh : List (Nat × Nat)) (h1 : refresh_due k T d = true) (h2 : d.frame_node ≠ end_pos) :
    display_loop k size end_pos T now x (d :: ds) (ld, upd, sh)
      = ({ d with last_update_time := now x } ::
          (display_loop k size end_pos T now (x + 1) ds
            (if x = size - 1 then d.frame_node else ld, if x = size - 1 then true else upd,
              sh ++ [(x, d.frame_node)])).1,
          (display_loop k size end_pos T now (x + 1) ds
            (if x = size - 1 then d.frame_node else ld, if x = size - 1 then true else upd,
              sh ++ [(x, d.frame_node)])).2) := by
  rw [display_loop]
  by_cases hx : x = size - 1
  · simp [h1, h2, hx]
  · simp [h1, h2, hx]

theorem display_loop_getElem (k size end_pos : Nat) (T : Int) (now : Nat → Int) (x : Nat)
    (ds : List CaptureDisplay) (st : Nat × Bool × List (Nat × Nat)) (i : Nat) :
    (display_loop k size end_pos T now x ds st).1[i]?
      = ds[i]?.map (fun d =>
          if refresh_due k T d = true ∧ d.frame_node ≠ end_pos then
            { d with last_update_time := now (x + i) }
          else d) := by
  induction ds generalizing x st i with
  | nil => simp [display_loop]
  | cons d ds ih =>
    obtain ⟨ld, upd, sh⟩ := st
    by_cases h : refresh_due k T d = true ∧ d.frame_node ≠ end_pos
    · rw [display_loop_show _ _ _ _ _ _ _ _ _ _ _ h.1 h.2]
      cases i with
      | zero => simp [h]
      | succ i =>
        have e : x + (i + 1) = x + 1 + i := by omega
        simp only [List.getElem?_cons_succ, ih, e]
    · rw [display_loop_skip _ _ _ _ _ _ _ _ _ h]
      cases i with
      | zero => simp [h]
      | succ i =>
        have e : x + (i + 1) = x + 1 + i := by omega
        simp only [List.getElem?_cons_succ, ih, e]

theorem display_loop_core (k size end_pos : Nat) (T : Int) (now : Nat → Int) (x : Nat)
    (ds : List CaptureDisplay) (st : Nat × Bool × List (Nat × Nat)) :
    (display_loop k size end_pos T now x ds st).1.map CaptureDisplay.core
      = ds.map CaptureDisplay.core := by
  induction ds generalizing x st with
  | nil => simp [display_loop]
  | cons d ds ih =>
    obtain ⟨ld, upd, sh⟩ := st
    by_cases h : refresh_due k T d = true ∧ d.frame_node ≠ end_pos
    · rw [display_loop_show _ _ _ _ _ _ _ _ _ _ _ h.1 h.2]
      simp [ih, CaptureDisplay.core]
    · rw [display_loop_skip _ _ _ _ _ _ _ _ _ h]
      simp [ih]

theorem display_loop_length (k size end_pos : Nat) (T : Int) (now : Nat → Int) (x : Nat)
    (ds : List CaptureDisplay) (st : Nat × Bool × List (Nat × Nat)) :
    (display_loop k size end_pos T now x ds st).1.length = ds.length := by
  have := congrArg List.length (display_loop_core k size end_pos T now x ds st)
  simpa using this

theorem display_loop_last (k size end_pos : Nat) (T : Int) (now : Nat → Int) (x : Nat)
    (ds : List CaptureDisplay) (ld : Nat) (upd : Bool) (sh : List (Nat × Nat))
    (hsize : size = x + ds.length) :
    ((display_loop k size end_pos T now x ds (ld, upd, sh)).2.1 = ld ∧
      (display_loop k size end_pos T now x ds (ld, upd, sh)).2.2.1 = upd) ∨
    (∃ d, ds.getLast? = some d ∧ refresh_due k T d = true ∧ d.frame_node ≠ end_pos ∧
      (display_loop k size end_pos T now x ds (ld, upd, sh)).2.1 = d.frame_node ∧
      (display_loop k size end_pos T now x ds (ld, upd, sh)).2.2.1 = true) := by
  induction ds generalizing x ld upd sh with
  | nil => simp [display_loop]
  | cons d ds ih =>
    have hsize2 : size = x + 1 + ds.length := by
      simp only [List.length_cons] at hsize
      omega
    have hlast : ∀ z, ds.getLast? = some z → (d :: ds).getLast? = some z := by
      intro z hz
      cases ds with
      | nil => simp at hz
      | cons y ys => simpa [List.getLast?_cons_cons] using hz
    by_cases h : refresh_due k T d = true ∧ d.frame_node ≠ end_pos
    · rw [display_loop_show _ _ _ _ _ _ _ _ _ _ _ h.1 h.2]
      by_cases hx : x = size - 1
      · have hds : ds = [] := by
          apply List.eq_nil_of_length_eq_zero
          omega
        subst hds
        right
        exact ⟨d, by simp, h.1, h.2, by simp [display_loop, hx], by simp [display_loop, hx]⟩
      · simp only [hx, if_false]
        rcases ih (x + 1) ld upd (sh ++ [(x, d.frame_node)]) hsize2 with h3 | ⟨z, hz, h3⟩
        · exact Or.inl h3
        · exact Or.inr ⟨z, hlast z hz, h3⟩
    · rw [display_loop_skip _ _ _ _ _ _ _ _ _ h]
      rcases ih (x + 1) ld upd sh hsize2 with h3 | ⟨z, hz, h3⟩
      · exact Or.inl h3
      · exact Or.inr ⟨z, hlast z hz, h3⟩

theorem display_loop_shown (k size end_pos : Nat) (T : Int) (now : Nat → Int) (x : Nat)
    (ds : List CaptureDisplay) (ld : Nat) (upd : Bool) (sh : List (Nat × Nat)) :
    (display_loop k size end_pos T now x ds (ld, upd, sh)).2.2.2
      = sh ++ presented_by k end_pos T x ds := by
  induction ds generalizing x ld upd sh with
  | nil => simp [display_loop, presented_by]
  | cons d ds ih =>
    by_cases h : refresh_due k T d = true ∧ d.frame_node ≠ end_pos
    · rw [display_loop_show _ _ _ _ _ _ _ _ _ _ _ h.1 h.2]
      simp only [ih, presented_by, h, not_false_eq_true, and_self, if_true, ne_eq,
        List.append_assoc, List.singleton_append]
    · rw [display_loop_skip _ _ _ _ _ _ _ _ _ h]
      simp only [ih, presented_by, h, if_false]

theorem mem_presented_by (k end_pos : Nat) (T : Int) (x : Nat) (ds : List CaptureDisplay)
    (y p : Nat) :
    (y, p) ∈ presented_by k end_pos T x ds ↔
      ∃ d, x ≤ y ∧ ds[y - x]? = some d ∧ refresh_due k T d = true ∧ d.frame_node ≠ end_pos ∧
        p = d.frame_node := by
  induction ds generalizing x with
  | nil => simp [presented_by]
  | cons d ds ih =>
    have key : (∃ d', x + 1 ≤ y ∧ ds[y - (x + 1)]? = some d' ∧ refresh_due k T d' = true ∧
          d'.frame_node ≠ end_pos ∧ p = d'.frame_node) ↔
        (∃ d', x < y ∧ (d :: ds)[y - x]? = some d' ∧ refresh_due k T d' = true ∧
          d'.frame_node ≠ end_pos ∧ p = d'.frame_node) := by
      constructor
      · rintro ⟨d', h1, h2, h3⟩
        refine ⟨d', h1, ?_, h3⟩
        have : y - x = (y - (x + 1)) + 1 := by omega
        rw [this, List.getElem?_cons_succ]
        exact h2
      · rintro ⟨d', h1, h2, h3⟩
        refine ⟨d', h1, ?_, h3⟩
        have : y - x = (y - (x + 1)) + 1 := by omega
        rw [this, List.getElem?_cons_succ] at h2
        exact h2
    by_cases h : refresh_due k T d = true ∧ d.frame_node ≠ end_pos
    · simp only [presented_by, h, not_false_eq_true, and_self, if_true, List.mem_cons,
        Prod.mk.injEq, ih, key, ne_eq]
      constructor
      · rintro (⟨rfl, rfl⟩ | ⟨d', h1, h2⟩)
        · exact ⟨d, le_rfl, by simp, h.1, h.2, rfl⟩
        · exact ⟨d', by omega, h2⟩
      · rintro ⟨d', h1, h2, h3, h4, h5⟩
        by_cases hy : y = x
        · subst hy
          simp at h2
          subst h2
          exact Or.inl ⟨rfl, h5⟩
        · exact Or.inr ⟨d', by omega, h2, h3, h4, h5⟩
    · simp only [presented_by, h, if_false, ih, key]
      constructor
      · rintro ⟨d', h1, h2⟩
        exact ⟨d', by omega, h2⟩
      · rintro ⟨d', h1, h2, h3, h4, h5⟩
        by_cases hy : y = x
        · subst hy
          simp at h2
          subst h2
          exact absurd ⟨h3, h4⟩ h
        · exact ⟨d', by omega, h2, h3, h4, h5⟩

/-! ## Lemmas on the displays a poll leaves -/

theorem core_mem {l l2 : List CaptureDisplay}
    (h : l2.map CaptureDisplay.core = l.map CaptureDisplay.core) (d : CaptureDisplay)
    (hd : d ∈ l2) : ∃ d0 ∈ l, d0.delay = d.delay ∧ d0.frame_node = d.frame_node := by
  have h1 : d.core ∈ l2.map CaptureDisplay.core := List.mem_map_of_mem _ hd
  rw [h, List.mem_map] at h1
  obtain ⟨d0, h2, h3⟩ := h1
  simp only [CaptureDisplay.core, Prod.mk.injEq] at h3
  exact ⟨d0, h2, h3.1, h3.2⟩

theorem core_pairwise {l l2 : List CaptureDisplay}
    (h : l2.map CaptureDisplay.core = l.map CaptureDisplay.core)
    (hs : l.Pairwise (fun a b => a.delay ≤ b.delay ∧ b.frame_node ≤ a.frame_node)) :
    l2.Pairwise (fun a b => a.delay ≤ b.delay ∧ b.frame_node ≤ a.frame_node) := by
  have h1 : (l.map CaptureDisplay.core).Pairwise (fun p q => p.1 ≤ q.1 ∧ q.2 ≤ p.2) :=
    List.pairwise_map.2 hs
  rw [← h] at h1
  exact List.pairwise_map.1 h1

theorem pairwise_getLast {l : List CaptureDisplay} {z : CaptureDisplay}
    (hs : l.Pairwise (fun a b => a.delay ≤ b.delay ∧ b.frame_node ≤ a.frame_node))
    (hz : l.getLast? = some z) : ∀ d ∈ l, z.frame_node ≤ d.frame_node := by
  induction l with
  | nil => simp at hz
  | cons a l ih =>
    cases l with
    | nil =>
      simp at hz
      subst hz
      simp
    | cons b l =>
      rw [List.getLast?_cons_cons] at hz
      rw [List.pairwise_cons] at hs
      intro d hd
      rcases List.mem_cons.1 hd with rfl | hd
      · exact (hs.1 z (List.mem_of_getLast?_eq_some hz)).2
      · exact ih hs.2 hz d hd

/-! ## The invariant `WInv` holds in every reachable state -/

theorem winv_main_init (displays : List CaptureDisplay) (frame : Nat) (now : Int)
    (hne : displays ≠ []) : WInv (main_init displays frame now) where
  nonempty := by simpa [main_init] using hne
  head_le := le_rfl
  last_lt := by simp [main_init]
  last_le_last := by simp [main_init]
  in_log := by simp [main_init]

theorem winv_append {s : System} (h : WInv s) (n : FrameNode) (pf : Nat) (r rd : Bool) :
    WInv { s with frame_buffer := s.frame_buffer ++ [n], prev_frame := pf, run := r, read := rd } where
  nonempty := h.nonempty
  head_le := h.head_le
  last_lt := by
    have := h.last_lt
    simp only [List.length_append, List.length_singleton]
    omega
  last_le_last := h.last_le_last
  in_log := by
    intro d hd
    have := h.in_log d hd
    simp only [List.length_append, List.length_singleton]
    omega

theorem winv_capture_frames {s : System} (h : WInv s) (grab ret : Bool) (frame : Nat)
    (start_time now1 now2 : Int) :
    WInv (capture_frames s grab ret frame start_time now1 now2) := by
  unfold capture_frames
  cases hrun : s.run <;> cases grab <;> cases ret <;> simp only [if_true, if_false,
    Bool.not_true, Bool.not_false, Bool.false_eq_true] <;> first
    | exact h
    | exact winv_append h _ s.prev_frame _ _

theorem winv_update_frames {s : System} (h : WInv s) (now : Int) :
    WInv (update_frames s now) := by
  unfold update_frames
  cases hrun : s.run
  · simpa using h
  · simp only [if_true]
    exact winv_append h _ _ _ _

theorem winv_update_displays {s : System} (h : WInv s) (k : Nat) (T : Int) :
    WInv (update_displays k s T) := by
  unfold update_displays
  cases hrun : s.run
  · simpa using h
  · simp only [if_true]
    refine ⟨?_, h.head_le, h.last_lt, ?_, ?_⟩
    · simpa using h.nonempty
    · intro z hz
      simp only [List.getLast?_map, Option.map_eq_some'] at hz
      obtain ⟨z0, hz0, rfl⟩ := hz
      exact le_trans (h.last_le_last z0 hz0) (advance_pos_ge _ _ _ _ _)
    · intro d hd
      simp only [List.mem_map] at hd
      obtain ⟨d0, hd0, rfl⟩ := hd
      exact advance_pos_lt _ _ _ _ _ (h.in_log d0 hd0)

theorem winv_cleanup {s : System} (h : WInv s) : WInv (cleanup s) := by
  unfold cleanup
  cases hrun : s.run
  · simpa using h
  · simp only [if_true, cleanup_loop_eq _ s.updated _ _ h.head_le h.last_lt]
    have h1 := h.head_le
    have h2 := h.last_lt
    refine ⟨h.nonempty, ?_, ?_, h.last_le_last, ?_⟩
    · show (if s.updated = true then s.last_display else s.removed) ≤ s.last_display
      split <;> omega
    · show s.last_display < (if s.updated = true then s.last_display else s.removed)
        + (s.frame_buffer.drop ((if s.updated = true then s.last_display else s.removed)
          - s.removed)).length
      rw [List.length_drop]
      split <;> omega
    · intro d hd
      have h3 := h.in_log d hd
      show d.frame_node < (if s.updated = true then s.last_display else s.removed)
        + (s.frame_buffer.drop ((if s.updated = true then s.last_display else s.removed)
          - s.removed)).length
      rw [List.length_drop]
      split <;> omega

theorem core_getLast {l l2 : List CaptureDisplay}
    (h : l2.map CaptureDisplay.core = l.map CaptureDisplay.core) (z2 : CaptureDisplay)
    (hz : l2.getLast? = some z2) :
    ∃ z, l.getLast? = some z ∧ z.frame_node = z2.frame_node := by
  have h1 := congrArg List.getLast? h
  simp only [List.getLast?_map, hz, Option.map_some'] at h1
  cases hl : l.getLast? with
  | none => simp [hl] at h1
  | some z =>
    simp only [hl, Option.map_some', Option.some.injEq, CaptureDisplay.core,
      Prod.mk.injEq] at h1
    exact ⟨z, rfl, h1.2.symm⟩

theorem winv_display_frames {s : System} (h : WInv s) (k : Nat) (T : Int) (now : Nat → Int)
    (key : Nat) : WInv (display_frames k s T now key) := by
  unfold display_frames
  cases hrun : s.run
  · simpa using h
  · simp only [if_true]
    have hc := display_loop_core k s.displays.length s.end_pos T now 0 s.displays
      (s.last_display, s.updated, s.shown)
    have hl := display_loop_last k s.displays.length s.end_pos T now 0 s.displays
      s.last_display s.updated s.shown (by simp)
    refine ⟨?_, ?_, ?_, ?_, ?_⟩
    · intro hnil
      have := display_loop_length k s.displays.length s.end_pos T now 0 s.displays
        (s.last_display, s.updated, s.shown)
      simp only at hnil
      rw [hnil] at this
      exact h.nonempty (List.eq_nil_of_length_eq_zero this.symm)
    · show s.removed ≤ _
      rcases hl with ⟨h1, _⟩ | ⟨z, hz, _, _, h1, _⟩
      · rw [h1]
        exact h.head_le
      · rw [h1]
        exact le_trans h.head_le (h.last_le_last z hz)
    · show _ < s.removed + s.frame_buffer.length
      rcases hl with ⟨h1, _⟩ | ⟨z, hz, _, _, h1, _⟩
      · rw [h1]
        exact h.last_lt
      · rw [h1]
        exact h.in_log z (List.mem_of_getLast?_eq_some hz)
    · intro z2 hz2
      obtain ⟨z, hz, hpos⟩ := core_getLast hc z2 hz2
      show _ ≤ z2.frame_node
      rw [← hpos]
      rcases hl with ⟨h1, _⟩ | ⟨z3, hz3, _, _, h1, _⟩
      · rw [h1]
        exact h.last_le_last z hz
      · rw [h1, hz] at *
        cases hz3
        exact le_rfl
    · intro d hd
      obtain ⟨d0, hd0, _, hpos⟩ := core_mem hc d hd
      show d.frame_node < _
      rw [← hpos]
      exact h.in_log d0 hd0

theorem winv_step {s : System} (h : WInv s) (k : Nat) (e : Event) : WInv (step k s e) := by
  cases e with
  | capture grab ret frame start_time now1 now2 => exact winv_capture_frames h _ _ _ _ _ _
  | tick now => exact winv_update_frames h _
  | advance T => exact winv_update_displays h _ _
  | present T now key => exact winv_display_frames h _ _ _ _
  | reap => exact winv_cleanup h

theorem winv_exec {s : System} (h : WInv s) (k : Nat) (evs : List Event) :
    WInv (exec k s evs) := by
  induction evs generalizing s with
  | nil => exact h
  | cons e evs ih => exact ih (winv_step h k e)

theorem winv_of_inv {s : System} (h : Inv s) : WInv s where
  nonempty := h.nonempty
  head_le := h.head_le
  last_lt := by
    obtain ⟨d, hd⟩ := List.exists_mem_of_ne_nil _ h.nonempty
    exact lt_of_le_of_lt (h.last_le d hd) (h.in_log d hd)
  last_le_last := fun z hz => h.last_le z (List.mem_of_getLast?_eq_some hz)
  in_log := h.in_log

/-! ## The 64-bit range along a trace -/

theorem fits_of_fitsinv {k : Nat} {displays : List CaptureDisplay} {s : System}
    (h : FitsInv k displays s) : Fits k s := by
  intro d hd n hn
  obtain ⟨d0, hd0, he⟩ := h.1 d hd
  have h2 := h.2 n hn
  simp only [stamp_fits, List.all_eq_true] at h2
  rw [← he]
  exact h2 d0 hd0

theorem fitsinv_main_init (k : Nat) (displays : List CaptureDisplay) (frame : Nat) (now : Int)
    (h : stamp_fits k displays now = true) : FitsInv k displays (main_init displays frame now) := by
  constructor
  · intro d hd
    simp only [main_init, List.mem_map] at hd
    obtain ⟨d0, hd0, rfl⟩ := hd
    exact ⟨d0, hd0, rfl⟩
  · intro n hn
    simp only [main_init, List.mem_singleton] at hn
    subst hn
    exact h

theorem fitsinv_of {k : Nat} {displays : List CaptureDisplay} {s s2 : System}
    (h : FitsInv k displays s)
    (hd : ∀ d ∈ s2.displays, ∃ d0 ∈ s.displays, d0.delay = d.delay)
    (hb : ∀ n ∈ s2.frame_buffer,
      n ∈ s.frame_buffer ∨ stamp_fits k displays n.time_stamp = true) :
    FitsInv k displays s2 := by
  constructor
  · intro d hd2
    obtain ⟨d1, hd1, he1⟩ := hd d hd2
    obtain ⟨d0, hd0, he0⟩ := h.1 d1 hd1
    exact ⟨d0, hd0, he0.trans he1⟩
  · intro n hn
    rcases hb n hn with h1 | h1
    · exact h.2 n h1
    · exact h1

theorem fitsinv_append {k : Nat} {displays : List CaptureDisplay} {s : System}
    (h : FitsInv k displays s) (n : FrameNode) (pf : Nat) (r rd : Bool)
    (hn : stamp_fits k displays n.time_stamp = true) :
    FitsInv k displays
      { s with frame_buffer := s.frame_buffer ++ [n], prev_frame := pf, run := r, read := rd } := by
  refine fitsinv_of h (fun d hd => ⟨d, hd, rfl⟩) ?_
  intro m hm
  rcases List.mem_append.1 hm with h1 | h1
  · exact Or.inl h1
  · simp only [List.mem_singleton] at h1
    subst h1
    exact Or.inr hn

theorem fitsinv_step (k : Nat) (displays : List CaptureDisplay) (s : System) (e : Event)
    (evs : List Event) (h : FitsInv k displays s)
    (htr : trace_fits k displays (e :: evs) = true) :
    FitsInv k displays (step k s e) ∧ trace_fits k displays evs = true := by
  cases e with
  | capture grab ret frame start_time now1 now2 =>
    cases grab with
    | false =>
      refine ⟨?_, by simpa [trace_fits] using htr⟩
      simp only [step, capture_frames]
      cases s.run <;> exact h
    | true =>
      simp only [trace_fits, Bool.and_eq_true] at htr
      refine ⟨?_, htr.2⟩
      simp only [step, capture_frames]
      cases s.run
      · exact h
      · cases ret
        · exact fitsinv_append h _ s.prev_frame _ _ htr.1
        · exact fitsinv_append h _ s.prev_frame _ _ htr.1
  | tick now =>
    simp only [trace_fits, Bool.and_eq_true] at htr
    refine ⟨?_, htr.2⟩
    simp only [step, update_frames]
    cases s.run
    · exact h
    · exact fitsinv_append h _ _ _ _ htr.1
  | advance T =>
    refine ⟨?_, by simpa [trace_fits] using htr⟩
    simp only [step, update_displays]
    cases s.run
    · exact h
    · refine fitsinv_of h ?_ (fun n hn => Or.inl hn)
      intro d hd
      simp only [if_true, List.mem_map] at hd
      obtain ⟨d0, hd0, rfl⟩ := hd
      exact ⟨d0, hd0, rfl⟩
  | present T now key =>
    refine ⟨?_, by simpa [trace_fits] using htr⟩
    simp only [step, display_frames]
    cases s.run
    · exact h
    · have hc := display_loop_core k s.displays.length s.end_pos T now 0 s.displays
        (s.last_display, s.updated, s.shown)
      refine fitsinv_of h ?_ (fun n hn => Or.inl hn)
      intro d hd
      obtain ⟨d0, hd0, hdel, _⟩ := core_mem hc d hd
      exact ⟨d0, hd0, hdel⟩
  | reap =>
    refine ⟨?_, by simpa [trace_fits] using htr⟩
    simp only [step, cleanup]
    cases s.run
    · exact h
    · obtain ⟨m, _, hm⟩ :=
        cleanup_loop_drop s.last_display s.updated s.removed s.frame_buffer
      refine fitsinv_of h (fun d hd => ⟨d, hd, rfl⟩) ?_
      intro n hn
      simp only [if_true, hm] at hn
      exact Or.inl (List.mem_of_mem_drop hn)

theorem fitsinv_exec (k : Nat) (displays : List CaptureDisplay) (s : System)
    (evs : List Event) (h : FitsInv k displays s) (htr : trace_fits k displays evs = true) :
    FitsInv k displays (exec k s evs) := by
  induction evs generalizing s with
  | nil => exact h
  | cons e evs ih =>
    obtain ⟨h2, htr2⟩ := fitsinv_step k displays s e evs h htr
    exact ih (step k s e) h2 htr2

/-! ## The invariant `Inv` holds along a trace that stays in the 64-bit range -/

theorem advance_pos_order (k removed : Nat) (buf : List FrameNode) (T : Int)
    (a b : CaptureDisplay) (hd : a.delay ≤ b.delay) (hp : b.frame_node ≤ a.frame_node)
    (ha1 : removed ≤ a.frame_node) (ha2 : a.frame_node < removed + buf.length)
    (hb2 : b.frame_node < removed + buf.length)
    (hfa : ∀ n ∈ buf, sum_fits n.time_stamp ((k : Int) * a.delay) = true)
    (hfb : ∀ n ∈ buf, sum_fits n.time_stamp ((k : Int) * b.delay) = true) :
    advance_pos k removed buf T b ≤ advance_pos k removed buf T a := by
  by_contra hlt
  have hlt : advance_pos k removed buf T a < advance_pos k removed buf T b := by omega
  have hbl := advance_pos_lt k removed buf T b hb2
  have hage := advance_pos_ge k removed buf T a
  rcases advance_pos_stop k removed buf T a ha1 ha2 with h | ⟨n, hn, hstop⟩
  · omega
  · have hpass := advance_pos_passed k removed buf T b _ n (by omega) hlt hn
    rw [wrap64_of_fits _ _ (hfb n (node_at_mem hn))] at hpass
    rw [wrap64_of_fits _ _ (hfa n (node_at_mem hn))] at hstop
    have hk : (k : Int) * a.delay ≤ (k : Int) * b.delay :=
      mul_le_mul_of_nonneg_left hd (Int.ofNat_nonneg k)
    exact hstop (by omega)

theorem inv_main_init (displays : List CaptureDisplay) (frame : Nat) (now : Int)
    (hne : displays ≠ []) (hs : displays.Pairwise (fun a b => a.delay ≤ b.delay)) :
    Inv (main_init displays frame now) where
  nonempty := by simpa [main_init] using hne
  sorted := by
    simp only [main_init, List.pairwise_map, le_refl, and_true]
    exact hs
  head_le := le_rfl
  last_le := by simp [main_init]
  in_log := by simp [main_init]

theorem inv_append {s : System} (h : Inv s) (n : FrameNode) (pf : Nat) (r rd : Bool) :
    Inv { s with frame_buffer := s.frame_buffer ++ [n], prev_frame := pf, run := r, read := rd } where
  nonempty := h.nonempty
  sorted := h.sorted
  head_le := h.head_le
  last_le := h.last_le
  in_log := by
    intro d hd
    have := h.in_log d hd
    simp only [List.length_append, List.length_singleton]
    omega

theorem inv_capture_frames {s : System} (h : Inv s) (grab ret : Bool) (frame : Nat)
    (start_time now1 now2 : Int) :
    Inv (capture_frames s grab ret frame start_time now1 now2) := by
  unfold capture_frames
  cases hrun : s.run <;> cases grab <;> cases ret <;> simp only [if_true, if_false,
    Bool.not_true, Bool.not_false, Bool.false_eq_true] <;> first
    | exact h
    | exact inv_append h _ s.prev_frame _ _

theorem inv_update_frames {s : System} (h : Inv s) (now : Int) : Inv (update_frames s now) := by
  unfold update_frames
  cases hrun : s.run
  · simpa using h
  · simp only [if_true]
    exact inv_append h _ _ _ _

theorem inv_update_displays {s : System} (h : Inv s) (k : Nat) (T : Int)
    (hfit : Fits k s) : Inv (update_displays k s T) := by
  unfold update_displays
  cases hrun : s.run
  · simpa using h
  · simp only [if_true]
    refine ⟨?_, ?_, h.head_le, ?_, ?_⟩
    · simpa using h.nonempty
    · simp only [List.pairwise_map, advance_display]
      refine List.Pairwise.imp_of_mem ?_ h.sorted
      intro a b ha hb hab
      refine ⟨hab.1, ?_⟩
      exact advance_pos_order k s.removed s.frame_buffer T a b hab.1 hab.2
        (le_trans h.head_le (h.last_le a ha)) (h.in_log a ha) (h.in_log b hb)
        (hfit a ha) (hfit b hb)
    · intro d hd
      simp only [List.mem_map] at hd
      obtain ⟨d0, hd0, rfl⟩ := hd
      exact le_trans (h.last_le d0 hd0) (advance_pos_ge _ _ _ _ _)
    · intro d hd
      simp only [List.mem_map] at hd
      obtain ⟨d0, hd0, rfl⟩ := hd
      exact advance_pos_lt _ _ _ _ _ (h.in_log d0 hd0)

theorem inv_cleanup {s : System} (h : Inv s) : Inv (cleanup s) := by
  unfold cleanup
  cases hrun : s.run
  · simpa using h
  · obtain ⟨d, hd⟩ := List.exists_mem_of_ne_nil _ h.nonempty
    have hlt : s.last_display < s.removed + s.frame_buffer.length :=
      lt_of_le_of_lt (h.last_le d hd) (h.in_log d hd)
    simp only [if_true, cleanup_loop_eq _ s.updated _ _ h.head_le hlt]
    refine ⟨h.nonempty, h.sorted, ?_, h.last_le, ?_⟩
    · have := h.head_le
      show (if s.updated = true then s.last_display else s.removed) ≤ s.last_display
      split <;> omega
    · intro d hd
      have h1 := h.in_log d hd
      have h2 := h.head_le
      show d.frame_node < (if s.updated = true then s.last_display else s.removed)
        + (s.frame_buffer.drop ((if s.updated = true then s.last_display else s.removed)
          - s.removed)).length
      rw [List.length_drop]
      split <;> omega

theorem inv_display_frames {s : System} (h : Inv s) (k : Nat) (T : Int) (now : Nat → Int)
    (key : Nat) : Inv (display_frames k s T now key) := by
  unfold display_frames
  cases hrun : s.run
  · simpa using h
  · simp only [if_true]
    have hc := display_loop_core k s.displays.length s.end_pos T now 0 s.displays
      (s.last_display, s.updated, s.shown)
    have hl := display_loop_last k s.displays.length s.end_pos T now 0 s.displays
      s.last_display s.updated s.shown (by simp)
    refine ⟨?_, core_pairwise hc h.sorted, ?_, ?_, ?_⟩
    · intro hnil
      have := display_loop_length k s.displays.length s.end_pos T now 0 s.displays
        (s.last_display, s.updated, s.shown)
      simp only at hnil
      rw [hnil] at this
      exact h.nonempty (List.eq_nil_of_length_eq_zero this.symm)
    · show s.removed ≤ _
      rcases hl with ⟨h1, _⟩ | ⟨z, hz, _, _, h1, _⟩
      · rw [h1]
        exact h.head_le
      · rw [h1]
        exact le_trans h.head_le (h.last_le z (List.mem_of_getLast?_eq_some hz))
    · intro d hd
      obtain ⟨d0, hd0, _, hpos⟩ := core_mem hc d hd
      show _ ≤ d.frame_node
      rw [← hpos]
      rcases hl with ⟨h1, _⟩ | ⟨z, hz, _, _, h1, _⟩
      · rw [h1]
        exact h.last_le d0 hd0
      · rw [h1]
        exact pairwise_getLast h.sorted hz d0 hd0
    · intro d hd
      obtain ⟨d0, hd0, _, hpos⟩ := core_mem hc d hd
      show d.frame_node < _
      rw [← hpos]
      exact h.in_log d0 hd0

theorem inv_step {s : System} (h : Inv s) (k : Nat) (e : Event) (hfit : Fits k s) :
    Inv (step k s e) := by
  cases e with
  | capture grab ret frame start_time now1 now2 => exact inv_capture_frames h _ _ _ _ _ _
  | tick now => exact inv_update_frames h _
  | advance T => exact inv_update_displays h _ _ hfit
  | present T now key => exact inv_display_frames h _ _ _ _
  | reap => exact inv_cleanup h

theorem inv_exec {s : System} (h : Inv s) (k : Nat) (displays : List CaptureDisplay)
    (evs : List Event) (hf : FitsInv k displays s) (htr : trace_fits k displays evs = true) :
    Inv (exec k s evs) := by
  induction evs generalizing s with
  | nil => exact h
  | cons e evs ih =>
    obtain ⟨hf2, htr2⟩ := fitsinv_step k displays s e evs hf htr
    exact ih (inv_step h k e (fits_of_fitsinv hf)) hf2 htr2

/-! ## Records a cursor has gone past -/

theorem node_at_append {removed : Nat} {buf : List FrameNode} {i : Nat} {n m : FrameNode}
    (hi : i < removed + buf.length) (h : node_at removed (buf ++ [m]) i = some n) :
    node_at removed buf i = some n := by
  unfold node_at at h ⊢
  split
  · rename_i hlt
    simp [hlt] at h
  · rename_i hlt
    simp only [hlt, if_false] at h
    rw [List.getElem?_append_left (by omega)] at h
    exact h

theorem node_at_drop {removed r : Nat} {buf : List FrameNode} {i : Nat} {n : FrameNode}
    (hr : removed ≤ r) (h : node_at r (buf.drop (r - removed)) i = some n) :
    node_at removed buf i = some n := by
  unfold node_at at h ⊢
  split at h
  · exact absurd h (by simp)
  · rename_i hlt
    have hlt2 : ¬ i < removed := by omega
    simp only [hlt2, if_false]
    rw [List.getElem?_drop] at h
    have : r - removed + (i - r) = i - removed := by omega
    rw [this] at h
    exact h

theorem passed_mono {k : Nat} {s : System} {T T2 : Int} (h : Passed k s T) (hT : T ≤ T2) :
    Passed k s T2 := by
  intro d hd i n hi hn
  have := h d hd i n hi hn
  omega

theorem passed_main_init (k : Nat) (displays : List CaptureDisplay) (frame : Nat) (now T : Int) :
    Passed k (main_init displays frame now) T := by
  intro d hd i n hi hn
  simp only [main_init, List.mem_map] at hd
  obtain ⟨d0, _, rfl⟩ := hd
  simp at hi

theorem passed_append {k : Nat} {s : System} {T : Int} (hinv : WInv s) (h : Passed k s T)
    (m : FrameNode) (pf : Nat) (r rd : Bool) :
    Passed k
      { s with frame_buffer := s.frame_buffer ++ [m], prev_frame := pf, run := r, read := rd }
      T := by
  intro d hd i n hi hn
  have hlt := hinv.in_log d hd
  exact h d hd i n hi (node_at_append (by omega) hn)

theorem passed_capture_frames {k : Nat} {s : System} {T : Int} (hinv : WInv s)
    (h : Passed k s T) (grab ret : Bool) (frame : Nat) (start_time now1 now2 : Int) :
    Passed k (capture_frames s grab ret frame start_time now1 now2) T := by
  unfold capture_frames
  cases hrun : s.run <;> cases grab <;> cases ret <;> simp only [if_true, if_false,
    Bool.not_true, Bool.not_false, Bool.false_eq_true] <;> first
    | exact h
    | exact passed_append hinv h _ s.prev_frame _ _

theorem passed_update_frames {k : Nat} {s : System} {T : Int} (hinv : WInv s)
    (h : Passed k s T) (now : Int) : Passed k (update_frames s now) T := by
  unfold update_frames
  cases hrun : s.run
  · simpa using h
  · simp only [if_true]
    exact passed_append hinv h _ _ _ _

theorem passed_update_displays {k : Nat} {s : System} {T : Int} (h : Passed k s T)
    (T1 : Int) (hT : T1 ≤ T) (hfit : Fits k s) : Passed k (update_displays k s T1) T := by
  unfold update_displays
  cases hrun : s.run
  · simpa using h
  · simp only [if_true]
    intro d hd i n hi hn
    simp only [List.mem_map] at hd
    obtain ⟨d0, hd0, rfl⟩ := hd
    simp only [advance_display] at hi ⊢
    by_cases hlt : i < d0.frame_node
    · exact h d0 hd0 i n hlt hn
    · have := advance_pos_passed k s.removed s.frame_buffer T1 d0 i n (by omega) hi hn
      rw [wrap64_of_fits _ _ (hfit d0 hd0 n (node_at_mem hn))] at this
      omega

theorem passed_cleanup {k : Nat} {s : System} {T : Int} (hinv : WInv s) (h : Passed k s T) :
    Passed k (cleanup s) T := by
  unfold cleanup
  cases hrun : s.run
  · simpa using h
  · simp only [if_true, cleanup_loop_eq _ s.updated _ _ hinv.head_le hinv.last_lt]
    intro d hd i n hi hn
    have hle : s.removed ≤ (if s.updated = true then s.last_display else s.removed) := by
      have := hinv.head_le
      split <;> omega
    have hn2 : node_at (if s.updated = true then s.last_display else s.removed)
        (s.frame_buffer.drop ((if s.updated = true then s.last_display else s.removed)
          - s.removed)) i = some n := hn
    exact h d hd i n hi (node_at_drop hle hn2)

theorem passed_display_frames {k : Nat} {s : System} {T : Int} (h : Passed k s T)
    (T1 : Int) (now : Nat → Int) (key : Nat) : Passed k (display_frames k s T1 now key) T := by
  unfold display_frames
  cases hrun : s.run
  · simpa using h
  · simp only [if_true]
    have hc := display_loop_core k s.displays.length s.end_pos T1 now 0 s.displays
      (s.last_display, s.updated, s.shown)
    intro d hd i n hi hn
    obtain ⟨d0, hd0, hdel, hpos⟩ := core_mem hc d hd
    rw [← hdel]
    exact h d0 hd0 i n (by omega) hn

theorem passed_exec {k : Nat} {s : System} {T : Int} (hinv : WInv s) (h : Passed k s T)
    (displays : List CaptureDisplay) (evs : List Event) (hf : FitsInv k displays s)
    (htr : trace_fits k displays evs = true) (hT : advances_by T evs = true) :
    Passed k (exec k s evs) T := by
  induction evs generalizing s with
  | nil => exact h
  | cons e evs ih =>
    obtain ⟨hf2, htr2⟩ := fitsinv_step k displays s e evs hf htr
    cases e with
    | capture grab ret frame start_time now1 now2 =>
      exact ih (winv_step hinv k _) (passed_capture_frames hinv h _ _ _ _ _ _) hf2 htr2
        (by simpa [advances_by] using hT)
    | tick now =>
      exact ih (winv_step hinv k _) (passed_update_frames hinv h _) hf2 htr2
        (by simpa [advances_by] using hT)
    | advance T1 =>
      simp only [advances_by, Bool.and_eq_true, decide_eq_true_eq] at hT
      exact ih (winv_step hinv k _) (passed_update_displays h T1 hT.1 (fits_of_fitsinv hf))
        hf2 htr2 hT.2
    | present T1 now key =>
      exact ih (winv_step hinv k _) (passed_display_frames h _ _ _) hf2 htr2
        (by simpa [advances_by] using hT)
    | reap =>
      exact ih (winv_step hinv k _) (passed_cleanup hinv h) hf2 htr2
        (by simpa [advances_by] using hT)

/-! ## C2: the record under the cursor -/

/-- C2 (as stated, refuted): after the initial frame (time stamp 0), one `update_frames`
step at time 10 and one advance pass at time 12, the display of delay 5 is on the record
with time stamp 10, and `10 + 5 ≤ 12` fails at the observation time 12. -/
theorem cursor_record_too_young :
    ∃ d ∈ (exec 1 two_init [Event.tick 10, Event.advance 12]).displays,
      ∃ n, (exec 1 two_init [Event.tick 10, Event.advance 12]).node d.frame_node = some n ∧
        ¬ (n.time_stamp + ((1 : Nat) : Int) * d.delay ≤ 12) :=
  ⟨CaptureDisplay.mk "d5" 5 0 4 0 1, by decide, FrameNode.mk 7 10, by decide, by decide⟩

/-- C2 (amended): in every state reachable from `main_init` by whole steps in which no
sum `time_stamp + delay` leaves the 64-bit range, observed at a time `T` not before any
advance pass, every record of the log before a display's cursor has
`time_stamp + delay < T`; nothing is promised of the record under the cursor. -/
theorem passed_records_old (k : Nat) (displays : List CaptureDisplay) (frame : Nat)
    (now T : Int) (evs : List Event) (hne : displays ≠ [])
    (h0 : stamp_fits k displays now = true) (hfit : trace_fits k displays evs = true)
    (hT : advances_by T evs = true) :
    ∀ d ∈ (exec k (main_init displays frame now) evs).displays, ∀ i n,
      i < d.frame_node → (exec k (main_init displays frame now) evs).node i = some n →
      n.time_stamp + (k : Int) * d.delay < T :=
  passed_exec (winv_main_init displays frame now hne) (passed_main_init k _ _ _ _) displays evs
    (fitsinv_main_init k displays frame now h0) hfit hT

/-- Witness for `passed_records_old`: two passes at times 12 and 22, observed at 22. -/
theorem passed_records_old_witness :
    two_displays ≠ [] ∧ stamp_fits 1 two_displays 0 = true ∧
    trace_fits 1 two_displays
      [Event.tick 10, Event.advance 12, Event.tick 20, Event.advance 22] = true ∧
    advances_by 22 [Event.tick 10, Event.advance 12, Event.tick 20, Event.advance 22] = true ∧
    ∀ d ∈ (exec 1 (main_init two_displays 7 0)
        [Event.tick 10, Event.advance 12, Event.tick 20, Event.advance 22]).displays, ∀ i n,
      i < d.frame_node →
      (exec 1 (main_init two_displays 7 0)
        [Event.tick 10, Event.advance 12, Event.tick 20, Event.advance 22]).node i = some n →
      n.time_stamp + ((1 : Nat) : Int) * d.delay < 22 :=
  ⟨by decide, by decide, by decide, by decide,
    passed_records_old 1 two_displays 7 0 22 _ (by decide) (by decide) (by decide)
      (by decide)⟩

/-! ## C3: no cursor refers to a removed record -/

/-- C3 (the code at the failing input): `main` accepts the delays 1 s and 1e10 s and sorts
them; with a nanosecond clock the sum `time_stamp + delay` of the second display
overflows 64 bits and is negative, so the pass at 30 ms moves its cursor to the tail
(record 2) while the first display stays on record 0.  The poll at 40 ms publishes both and
sets `last_display` to record 2, and the cleanup pass removes records 0 and 1: the cursor
of the first display is before the head of the log and refers to no record. -/
theorem cursor_dangles_on_overflow :
    far_displays ≠ [] ∧ far_displays.Pairwise (fun a b => a.delay ≤ b.delay) ∧
    (exec 1000 (main_init far_displays 7 0)
      [Event.tick 10000000, Event.tick 20000000, Event.advance 30000000,
        Event.present 40000000 (fun _ => 40000001) 0, Event.reap]).removed = 2 ∧
    (exec 1000 (main_init far_displays 7 0)
      [Event.tick 10000000, Event.tick 20000000, Event.advance 30000000,
        Event.present 40000000 (fun _ => 40000001) 0, Event.reap]).displays.map
        CaptureDisplay.frame_node = [0, 2] ∧
    (exec 1000 (main_init far_displays 7 0)
      [Event.tick 10000000, Event.tick 20000000, Event.advance 30000000,
        Event.present 40000000 (fun _ => 40000001) 0, Event.reap]).node 0 = none ∧
    wrap64 (0 + wrap64 (((1000 : Nat) : Int) * 10000000000000004)) = -8446744073709547616 := by
  decide

/-! ## C4: the head after a cleanup pass -/

/-- C4 (as stated, refuted): both displays publish at time 5 (so `last_display` is record
0 and `updated` is set), `update_frames` appends at 10, the pass at 12 moves both cursors
to record 1, and the cleanup pass that follows leaves the head at record 0: the head is
no display's cursor, hence not the minimum cursor. -/
theorem head_not_min_cursor :
    (cleanup (exec 1 two_init
        [Event.present 5 (fun _ => 5) 0, Event.tick 10, Event.advance 12])).removed = 0 ∧
    (cleanup (exec 1 two_init
        [Event.present 5 (fun _ => 5) 0, Event.tick 10, Event.advance 12])).displays.map
          CaptureDisplay.frame_node = [1, 1] ∧
    ¬ ∃ d ∈ (cleanup (exec 1 two_init
        [Event.present 5 (fun _ => 5) 0, Event.tick 10, Event.advance 12])).displays,
      (cleanup (exec 1 two_init
        [Event.present 5 (fun _ => 5) 0, Event.tick 10, Event.advance 12])).removed
        = d.frame_node := by
  decide

/-- C4 (amended): a cleanup pass run in a state reached by whole steps in which no sum
`time_stamp + delay` leaves the 64-bit range puts the head of the log at `last_display` if
`updated` is set and leaves the log as it is otherwise; the records before the new head are
removed, the others kept, and the new head is at or before every display's cursor. -/
theorem cleanup_head (k : Nat) (displays : List CaptureDisplay) (frame : Nat) (now : Int)
    (evs : List Event) (hne : displays ≠ [])
    (hs : displays.Pairwise (fun a b => a.delay ≤ b.delay))
    (h0 : stamp_fits k displays now = true) (hfit : trace_fits k displays evs = true)
    (hrun : (exec k (main_init displays frame now) evs).run = true) :
    (cleanup (exec k (main_init displays frame now) evs)).removed
      = (if (exec k (main_init displays frame now) evs).updated = true
          then (exec k (main_init displays frame now) evs).last_display
          else (exec k (main_init displays frame now) evs).removed) ∧
    (cleanup (exec k (main_init displays frame now) evs)).frame_buffer
      = (exec k (main_init displays frame now) evs).frame_buffer.drop
          ((cleanup (exec k (main_init displays frame now) evs)).removed
            - (exec k (main_init displays frame now) evs).removed) ∧
    ∀ d ∈ (cleanup (exec k (main_init displays frame now) evs)).displays,
      (cleanup (exec k (main_init displays frame now) evs)).removed ≤ d.frame_node := by
  have hinv := inv_exec (inv_main_init displays frame now hne hs) k displays evs
    (fitsinv_main_init k displays frame now h0) hfit
  have hinv2 := inv_cleanup hinv
  generalize exec k (main_init displays frame now) evs = s at hrun hinv hinv2 ⊢
  obtain ⟨d, hd⟩ := List.exists_mem_of_ne_nil _ hinv.nonempty
  have hlt : s.last_display < s.removed + s.frame_buffer.length :=
    lt_of_le_of_lt (hinv.last_le d hd) (hinv.in_log d hd)
  refine ⟨?_, ?_, fun d hd => le_trans hinv2.head_le (hinv2.last_le d hd)⟩
  · simp only [cleanup, hrun, if_true, cleanup_loop_eq _ s.updated _ _ hinv.head_le hlt]
  · simp only [cleanup, hrun, if_true, cleanup_loop_eq _ s.updated _ _ hinv.head_le hlt]

/-- Witness for `cleanup_head`: the cursors are moved to record 1, published, and the
cleanup pass removes record 0. -/
theorem cleanup_head_witness :
    two_displays ≠ [] ∧ two_displays.Pairwise (fun a b => a.delay ≤ b.delay) ∧
    stamp_fits 1 two_displays 0 = true ∧
    trace_fits 1 two_displays
      [Event.tick 10, Event.advance 12, Event.present 13 (fun _ => 13) 0] = true ∧
    (exec 1 (main_init two_displays 7 0)
      [Event.tick 10, Event.advance 12, Event.present 13 (fun _ => 13) 0]).run = true ∧
    (cleanup (exec 1 (main_init two_displays 7 0)
      [Event.tick 10, Event.advance 12, Event.present 13 (fun _ => 13) 0])).removed = 1 ∧
    (cleanup (exec 1 (main_init two_displays 7 0)
      [Event.tick 10, Event.advance 12, Event.present 13 (fun _ => 13) 0])).frame_buffer
      = [FrameNode.mk 7 10] :=
  ⟨by decide, by decide, by decide, by decide, by decide,
    (cleanup_head 1 two_displays 7 0
      [Event.tick 10, Event.advance 12, Event.present 13 (fun _ => 13) 0]
      (by decide) (by decide) (by decide) (by decide) (by decide)).1.trans (by decide),
    (cleanup_head 1 two_displays 7 0
      [Event.tick 10, Event.advance 12, Event.present 13 (fun _ => 13) 0]
      (by decide) (by decide) (by decide) (by decide) (by decide)).2.1.trans (by decide)⟩

/-! ## C5: cursors only move forward -/

theorem cursors_le_refl (l : List CaptureDisplay) : cursors_le l l := by
  refine ⟨rfl, ?_⟩
  intro i d d2 h1 h2
  rw [h1] at h2
  cases h2
  exact le_rfl

theorem cursors_le_trans {l1 l2 l3 : List CaptureDisplay} (h12 : cursors_le l1 l2)
    (h23 : cursors_le l2 l3) : cursors_le l1 l3 := by
  refine ⟨h12.1.trans h23.1, ?_⟩
  intro i d d3 h1 h3
  have hi : i < l2.length := by
    have := (List.getElem?_eq_some.1 h1).1
    rw [← h12.1]
    exact this
  have h2 : l2[i]? = some l2[i] := List.getElem?_eq_getElem hi
  exact le_trans (h12.2 i d _ h1 h2) (h23.2 i _ d3 h2 h3)

theorem cursors_le_step (k : Nat) (s : System) (e : Event) :
    cursors_le s.displays (step k s e).displays := by
  cases e with
  | capture grab ret frame start_time now1 now2 =>
    have : (capture_frames s grab ret frame start_time now1 now2).displays = s.displays := by
      unfold capture_frames
      cases s.run <;> cases grab <;> cases ret <;> rfl
    simp only [step, this]
    exact cursors_le_refl _
  | tick now =>
    have : (update_frames s now).displays = s.displays := by
      unfold update_frames
      cases s.run <;> rfl
    simp only [step, this]
    exact cursors_le_refl _
  | advance T =>
    simp only [step, update_displays]
    cases s.run
    · exact cursors_le_refl _
    · refine ⟨by simp, ?_⟩
      intro i d d2 h1 h2
      simp only [if_true, List.getElem?_map, h1, Option.map_some', Option.some.injEq] at h2
      subst h2
      exact advance_pos_ge _ _ _ _ _
  | present T now key =>
    simp only [step, display_frames]
    cases s.run
    · exact cursors_le_refl _
    · refine ⟨by simp [display_loop_length], ?_⟩
      intro i d d2 h1 h2
      simp only [if_true, display_loop_getElem, h1, Option.map_some', Option.some.injEq] at h2
      subst h2
      split <;> exact le_rfl
  | reap =>
    have : (cleanup s).displays = s.displays := by
      unfold cleanup
      cases s.run <;> rfl
    simp only [step, this]
    exact cursors_le_refl _

/-- C5: no whole step of any thread, and no sequence of them, moves a display's cursor to
an earlier record: display by display, the cursor after the steps is at or after the
cursor before them. -/
theorem cursor_monotone (k : Nat) (s : System) (evs : List Event) :
    cursors_le s.displays (exec k s evs).displays := by
  induction evs generalizing s with
  | nil => exact cursors_le_refl _
  | cons e evs ih => exact cursors_le_trans (cursors_le_step k s e) (ih (step k s e))

/-! ## C6: the order of the log -/

theorem step_buffer (k : Nat) (s : System) (e : Event) :
    ∃ m app, m ≤ s.frame_buffer.length ∧ app.length ≤ 1 ∧
      (step k s e).frame_buffer = s.frame_buffer.drop m ++ app ∧
      (step k s e).removed = s.removed + m := by
  have hsame : ∀ s2 : System, s2.frame_buffer = s.frame_buffer → s2.removed = s.removed →
      ∃ m app, m ≤ s.frame_buffer.length ∧ app.length ≤ 1 ∧
        s2.frame_buffer = s.frame_buffer.drop m ++ app ∧ s2.removed = s.removed + m :=
    fun s2 h1 h2 => ⟨0, [], Nat.zero_le _, by simp, by simp [h1], by simp [h2]⟩
  have happ : ∀ (s2 : System) (n : FrameNode), s2.frame_buffer = s.frame_buffer ++ [n] →
      s2.removed = s.removed →
      ∃ m app, m ≤ s.frame_buffer.length ∧ app.length ≤ 1 ∧
        s2.frame_buffer = s.frame_buffer.drop m ++ app ∧ s2.removed = s.removed + m :=
    fun s2 n h1 h2 => ⟨0, [n], Nat.zero_le _, by simp, by simp [h1], by simp [h2]⟩
  cases e with
  | capture grab ret frame start_time now1 now2 =>
    simp only [step, capture_frames]
    cases s.run
    · exact hsame _ rfl rfl
    · cases grab
      · exact hsame _ rfl rfl
      · cases ret
        · exact happ _ _ rfl rfl
        · exact happ _ _ rfl rfl
  | tick now =>
    simp only [step, update_frames]
    cases s.run
    · exact hsame _ rfl rfl
    · exact happ _ _ rfl rfl
  | advance T =>
    simp only [step, update_displays]
    cases s.run <;> exact hsame _ rfl rfl
  | present T now key =>
    simp only [step, display_frames]
    cases s.run <;> exact hsame _ rfl rfl
  | reap =>
    simp only [step, cleanup]
    cases s.run
    · exact hsame _ rfl rfl
    · obtain ⟨m, hm1, hm⟩ :=
        cleanup_loop_drop s.last_display s.updated s.removed s.frame_buffer
      exact ⟨m, [], hm1, by simp, by simp [hm], by simp [hm]⟩

theorem stamps_step (k : Nat) (s : System) (e : Event) (evs : List Event) (t : Int)
    (hsort : stamps_sorted s.frame_buffer) (hle : ∀ n ∈ s.frame_buffer, n.time_stamp ≤ t)
    (hord : stamps_ordered t (e :: evs) = true) :
    ∃ t2, stamps_sorted (step k s e).frame_buffer ∧
      (∀ n ∈ (step k s e).frame_buffer, n.time_stamp ≤ t2) ∧ stamps_ordered t2 evs = true := by
  have happ : ∀ (n : FrameNode), t ≤ n.time_stamp →
      stamps_sorted (s.frame_buffer ++ [n]) ∧
        ∀ m ∈ s.frame_buffer ++ [n], m.time_stamp ≤ n.time_stamp := by
    intro n hn
    constructor
    · unfold stamps_sorted
      rw [List.pairwise_append]
      refine ⟨hsort, by simp, ?_⟩
      intro a ha b hb
      simp only [List.mem_singleton] at hb
      subst hb
      exact le_trans (hle a ha) hn
    · intro m hm
      rcases List.mem_append.1 hm with h | h
      · exact le_trans (hle m h) hn
      · simp only [List.mem_singleton] at h
        subst h
        exact le_rfl
  cases e with
  | capture grab ret frame start_time now1 now2 =>
    cases grab with
    | false =>
      refine ⟨t, ?_, ?_, by simpa [stamps_ordered] using hord⟩ <;>
        · simp only [step, capture_frames]
          cases s.run <;> simpa
    | true =>
      simp only [stamps_ordered, Bool.and_eq_true, decide_eq_true_eq] at hord
      have h := happ (FrameNode.mk frame (now1 - (now2 - start_time))) hord.1
      refine ⟨now1 - (now2 - start_time), ?_, ?_, hord.2⟩
      · simp only [step, capture_frames]
        cases s.run <;> cases ret <;> first
          | exact hsort
          | exact h.1
      · simp only [step, capture_frames]
        cases s.run <;> cases ret <;> first
          | exact fun n hn => le_trans (hle n hn) hord.1
          | exact h.2
  | tick now =>
    simp only [stamps_ordered, Bool.and_eq_true, decide_eq_true_eq] at hord
    refine ⟨now, ?_, ?_, hord.2⟩
    · simp only [step, update_frames]
      cases s.run
      · exact hsort
      · exact (happ (FrameNode.mk _ now) hord.1).1
    · simp only [step, update_frames]
      cases s.run
      · exact fun n hn => le_trans (hle n hn) hord.1
      · exact (happ (FrameNode.mk _ now) hord.1).2
  | advance T =>
    refine ⟨t, ?_, ?_, by simpa [stamps_ordered] using hord⟩ <;>
      · simp only [step, update_displays]
        cases s.run <;> simpa
  | present T now key =>
    refine ⟨t, ?_, ?_, by simpa [stamps_ordered] using hord⟩ <;>
      · simp only [step, display_frames]
        cases s.run <;> simpa
  | reap =>
    obtain ⟨m, _, hm⟩ := cleanup_loop_drop s.last_display s.updated s.removed s.frame_buffer
    refine ⟨t, ?_, ?_, by simpa [stamps_ordered] using hord⟩
    · simp only [step, cleanup]
      cases s.run
      · exact hsort
      · simp only [if_true, hm]
        exact List.Pairwise.drop hsort
    · simp only [step, cleanup]
      cases s.run
      · exact hle
      · simp only [if_true, hm]
        exact fun n hn => hle n (List.mem_of_mem_drop hn)

theorem stamps_exec (k : Nat) (s : System) (evs : List Event) (t : Int)
    (hsort : stamps_sorted s.frame_buffer) (hle : ∀ n ∈ s.frame_buffer, n.time_stamp ≤ t)
    (hord : stamps_ordered t evs = true) : stamps_sorted (exec k s evs).frame_buffer := by
  induction evs generalizing s t with
  | nil => exact hsort
  | cons e evs ih =>
    obtain ⟨t2, h1, h2, h3⟩ := stamps_step k s e evs t hsort hle hord
    exact ih (step k s e) t2 h1 h2 h3

/-- C6 (as stated, refuted): `capture_frames` reads `start_time` at time 1 and waits for the
camera; `update_frames` appends a record stamped 5; `capture_frames` then appends its frame
with the stamp `6 - (6 - 1) = 1`.  The log holds the time stamps `[0, 5, 1]`. -/
theorem stamps_not_sorted :
    (exec 1 two_init [Event.tick 5, Event.capture true true 8 1 6 6]).frame_buffer
      = [FrameNode.mk 7 0, FrameNode.mk 7 5, FrameNode.mk 8 1] ∧
    ¬ stamps_sorted
      (exec 1 two_init [Event.tick 5, Event.capture true true 8 1 6 6]).frame_buffer := by
  unfold stamps_sorted
  decide

/-- C6 (amended): every whole step changes the log only by removing records at the head
and appending at most one record at the tail; and the time stamps are non-decreasing from
head to tail in every state reached by a trace in which each appended time stamp (the
clock read of `update_frames`, the back-dated `start_time` of `capture_frames`) is not
earlier than the one appended before it. -/
theorem log_order (k : Nat) (displays : List CaptureDisplay) (frame : Nat) (now : Int)
    (evs : List Event) (hord : stamps_ordered now evs = true) :
    (∀ (s : System) (e : Event), ∃ m app, m ≤ s.frame_buffer.length ∧ app.length ≤ 1 ∧
      (step k s e).frame_buffer = s.frame_buffer.drop m ++ app ∧
      (step k s e).removed = s.removed + m) ∧
    stamps_sorted (exec k (main_init displays frame now) evs).frame_buffer :=
  ⟨step_buffer k, stamps_exec k _ evs now (by simp [stamps_sorted, main_init])
    (by simp [main_init]) hord⟩

/-- Witness for `log_order`: `capture_frames` appends before `update_frames` does. -/
theorem log_order_witness :
    stamps_ordered 0 [Event.capture true true 8 1 6 6, Event.tick 7, Event.reap] = true ∧
    stamps_sorted (exec 1 (main_init two_displays 7 0)
      [Event.capture true true 8 1 6 6, Event.tick 7, Event.reap]).frame_buffer :=
  ⟨by decide, (log_order 1 two_displays 7 0 _ (by decide)).2⟩

/-! ## C7: buffer underrun -/

/-- C7 (as stated, refuted): for the display of delay 5 on the initial record (time stamp
0), a pass at time 3 is an underrun (`0 + 5 > 3`) and a pass at time 5 is not, and the two
passes leave the same state: nothing in a `CaptureDisplay` marks the underrun. -/
theorem underrun_not_marked :
    two_init.frame_buffer.head? = some (FrameNode.mk 7 0) ∧
    CaptureDisplay.mk "d5" 5 0 4 0 0 ∈ two_init.displays ∧
    (3 : Int) < (FrameNode.mk 7 0).time_stamp + ((1 : Nat) : Int) * (CaptureDisplay.mk "d5" 5 0 4 0 0).delay ∧
    ¬ ((5 : Int) < (FrameNode.mk 7 0).time_stamp
        + ((1 : Nat) : Int) * (CaptureDisplay.mk "d5" 5 0 4 0 0).delay) ∧
    update_displays 1 two_init 3 = update_displays 1 two_init 5 := by
  decide

/-- C7 (amended): in a state reached by whole steps in which no sum `time_stamp + delay`
leaves the 64-bit range, at a pass time `T` not before any earlier pass, a display whose
delay makes the oldest retained record too young (`timestamp + D > T`) has its cursor on
the head of the log, and the pass leaves that display as it is: the cursor stays on the
head and no field of the display records the underrun. -/
theorem underrun_keeps_head (k : Nat) (displays : List CaptureDisplay) (frame : Nat)
    (now T : Int) (evs : List Event) (d : CaptureDisplay) (h : FrameNode)
    (hne : displays ≠ []) (hs : displays.Pairwise (fun a b => a.delay ≤ b.delay))
    (h0 : stamp_fits k displays now = true) (hfit : trace_fits k displays evs = true)
    (hT : advances_by T evs = true)
    (hd : d ∈ (exec k (main_init displays frame now) evs).displays)
    (hh : (exec k (main_init displays frame now) evs).frame_buffer.head? = some h)
    (hu : T < h.time_stamp + (k : Int) * d.delay) :
    d.frame_node = (exec k (main_init displays frame now) evs).removed ∧
    advance_display k (exec k (main_init displays frame now) evs).removed
      (exec k (main_init displays frame now) evs).frame_buffer T d = d ∧
    d ∈ (update_displays k (exec k (main_init displays frame now) evs) T).displays := by
  have hf0 := fitsinv_main_init k displays frame now h0
  have hinv := inv_exec (inv_main_init displays frame now hne hs) k displays evs hf0 hfit
  have hpass := passed_exec (winv_main_init displays frame now hne)
    (passed_main_init k displays frame now T) displays evs hf0 hfit hT
  have hfits := fits_of_fitsinv (fitsinv_exec k displays _ evs hf0 hfit)
  generalize exec k (main_init displays frame now) evs = s at hd hh hinv hpass hfits ⊢
  have hge : s.removed ≤ d.frame_node := le_trans hinv.head_le (hinv.last_le d hd)
  have hnode : s.node s.removed = some h := by
    simp only [System.node, node_at, lt_irrefl, if_false, Nat.sub_self]
    rw [← List.head?_eq_getElem?]
    exact hh
  have hpos : d.frame_node = s.removed := by
    by_contra hne2
    have := hpass d hd s.removed h (by omega) hnode
    omega
  have hadv : advance_display k s.removed s.frame_buffer T d = d := by
    have hp : advance_pos k s.removed s.frame_buffer T d = d.frame_node := by
      have hmem : h ∈ s.frame_buffer := List.mem_of_mem_head? hh
      have hw := wrap64_of_fits _ _ (hfits d hd h hmem)
      unfold advance_pos
      rw [hpos]
      simp only [lt_irrefl, if_false, Nat.sub_self, List.drop_zero]
      cases hb : s.frame_buffer with
      | nil => rfl
      | cons c rest =>
        rw [hb] at hh
        simp only [List.head?_cons, Option.some.injEq] at hh
        subst hh
        cases rest with
        | nil => rfl
        | cons nxt rest =>
          have : ¬ wrap64 (c.time_stamp + wrap64 ((k : Int) * d.delay)) < T := by
            rw [hw]
            omega
          simp only [advance_from, this, if_false]
    simp only [advance_display, hp]
  refine ⟨hpos, hadv, ?_⟩
  unfold update_displays
  cases s.run
  · exact hd
  · simp only [if_true, List.mem_map]
    exact ⟨d, hd, hadv⟩

/-- Witness for `underrun_keeps_head`: the display of delay 5 after an append at time 2,
at the pass time 3. -/
theorem underrun_keeps_head_witness :
    two_displays ≠ [] ∧ two_displays.Pairwise (fun a b => a.delay ≤ b.delay) ∧
    stamp_fits 1 two_displays 0 = true ∧
    trace_fits 1 two_displays [Event.tick 2, Event.advance 2] = true ∧
    advances_by 3 [Event.tick 2, Event.advance 2] = true ∧
    CaptureDisplay.mk "d5" 5 0 4 0 0
      ∈ (exec 1 (main_init two_displays 7 0) [Event.tick 2, Event.advance 2]).displays ∧
    (exec 1 (main_init two_displays 7 0) [Event.tick 2, Event.advance 2]).frame_buffer.head?
      = some (FrameNode.mk 7 0) ∧
    (3 : Int) < (FrameNode.mk 7 0).time_stamp + ((1 : Nat) : Int) * (CaptureDisplay.mk "d5" 5 0 4 0 0).delay ∧
    (CaptureDisplay.mk "d5" 5 0 4 0 0).frame_node
      = (exec 1 (main_init two_displays 7 0) [Event.tick 2, Event.advance 2]).removed :=
  ⟨by decide, by decide, by decide, by decide, by decide, by decide, by decide, by decide,
    (underrun_keeps_head 1 two_displays 7 0 3 [Event.tick 2, Event.advance 2]
      (CaptureDisplay.mk "d5" 5 0 4 0 0) (FrameNode.mk 7 0) (by decide) (by decide) (by decide)
      (by decide) (by decide) (by decide) (by decide) (by decide)).1⟩

/-! ## C8: the refresh scheduler -/

theorem refresh_due_iff (k : Nat) (T : Int) (d : CaptureDisplay) (hk : 0 < k)
    (hmono : d.last_update_time ≤ T) :
    refresh_due k T d = true ↔ (k : Int) * d.frame_refresh_period ≤ T - d.last_update_time := by
  have hk2 : (0 : Int) < (k : Int) := by exact_mod_cast hk
  have h0 : (0 : Int) ≤ T - d.last_update_time := by omega
  simp only [refresh_due, Bool.not_eq_true', decide_eq_false_iff_not, not_lt]
  rw [Int.tdiv_eq_ediv h0 (le_of_lt hk2), Int.le_ediv_iff_mul_le hk2, mul_comm]

/-- C8: in a poll of `display_frames` at time `T` in a reachable state, a display whose
`last_update_time` is not after `T` is handed to the sink (`imshow`) and gets
`last_update_time` reset to the clock read `now x` if and only if
`T - last_update_time ≥ frame_refresh_period`; otherwise the poll leaves the display as it
is and shows nothing for it.  The cursor is the same in both cases. -/
theorem refresh_scheduler (k : Nat) (displays : List CaptureDisplay) (frame : Nat)
    (now0 T : Int) (evs : List Event) (now : Nat → Int) (key x : Nat) (d : CaptureDisplay)
    (hk : 0 < k) (hne : displays ≠ [])
    (hs : displays.Pairwise (fun a b => a.delay ≤ b.delay))
    (hrun : (exec k (main_init displays frame now0) evs).run = true)
    (hx : (exec k (main_init displays frame now0) evs).displays[x]? = some d)
    (hmono : d.last_update_time ≤ T) :
    (display_frames k (exec k (main_init displays frame now0) evs) T now key).shown
      = (exec k (main_init displays frame now0) evs).shown
        ++ presented_by k (exec k (main_init displays frame now0) evs).end_pos T 0
          (exec k (main_init displays frame now0) evs).displays ∧
    ((k : Int) * d.frame_refresh_period ≤ T - d.last_update_time →
      (display_frames k (exec k (main_init displays frame now0) evs) T now key).displays[x]?
        = some { d with last_update_time := now x } ∧
      (x, d.frame_node) ∈ presented_by k (exec k (main_init displays frame now0) evs).end_pos
        T 0 (exec k (main_init displays frame now0) evs).displays) ∧
    (¬ (k : Int) * d.frame_refresh_period ≤ T - d.last_update_time →
      (display_frames k (exec k (main_init displays frame now0) evs) T now key).displays[x]?
        = some d ∧
      ∀ p, (x, p) ∉ presented_by k (exec k (main_init displays frame now0) evs).end_pos
        T 0 (exec k (main_init displays frame now0) evs).displays) := by
  have _ := hs
  have hinv := winv_exec (winv_main_init displays frame now0 hne) k evs
  generalize exec k (main_init displays frame now0) evs = s at hrun hx hinv ⊢
  have hcur : d.frame_node ≠ s.end_pos := by
    have := hinv.in_log d (List.getElem?_mem hx)
    unfold System.end_pos
    omega
  have hdue := refresh_due_iff k T d hk hmono
  have hdisp : (display_frames k s T now key).displays[x]?
      = some (if refresh_due k T d = true ∧ d.frame_node ≠ s.end_pos then
          { d with last_update_time := now (0 + x) } else d) := by
    simp only [display_frames, hrun, if_true, display_loop_getElem, hx, Option.map_some']
  refine ⟨?_, ?_, ?_⟩
  · simp only [display_frames, hrun, if_true, display_loop_shown]
  · intro h
    have hd := hdue.2 h
    constructor
    · rw [hdisp, if_pos ⟨hd, hcur⟩, Nat.zero_add]
    · rw [mem_presented_by]
      exact ⟨d, Nat.zero_le _, by simpa using hx, hd, hcur, rfl⟩
  · intro h
    have hd : ¬ refresh_due k T d = true := fun h2 => h (hdue.1 h2)
    constructor
    · rw [hdisp, if_neg (fun h2 => hd h2.1)]
    · intro p hp
      rw [mem_presented_by] at hp
      obtain ⟨d2, _, h2, h3, _⟩ := hp
      simp only [Nat.sub_zero, hx, Option.some.injEq] at h2
      subst h2
      exact hd h3

/-- Witness for `refresh_scheduler`: a poll at time 3 with refresh periods 2 and 4; the
first display (period 2) is shown and reset. -/
theorem refresh_scheduler_witness :
    0 < 1 ∧ two_displays ≠ [] ∧ two_displays.Pairwise (fun a b => a.delay ≤ b.delay) ∧
    (exec 1 (main_init two_displays 7 0) [Event.tick 1]).run = true ∧
    (exec 1 (main_init two_displays 7 0) [Event.tick 1]).displays[0]?
      = some (CaptureDisplay.mk "d0" 0 0 2 0 0) ∧
    (CaptureDisplay.mk "d0" 0 0 2 0 0).last_update_time ≤ 3 ∧
    (display_frames 1 (exec 1 (main_init two_displays 7 0) [Event.tick 1]) 3
      (fun _ => 4) 0).shown = [(0, 0)] :=
  ⟨by decide, by decide, by decide, by decide, by decide, by decide,
    (refresh_scheduler 1 two_displays 7 0 3 [Event.tick 1] (fun _ => 4) 0 0
      (CaptureDisplay.mk "d0" 0 0 2 0 0) (by decide) (by decide) (by decide) (by decide) (by decide)
      (by decide)).1.trans (by decide)⟩

/-! ## C9: the padding ticker -/

theorem run_of_step (k : Nat) (s : System) (e : Event) (h : (step k s e).run = true) :
    s.run = true := by
  cases hr : s.run
  · cases e <;> simp [step, capture_frames, update_frames, update_displays, display_frames,
      cleanup, hr] at h
  · rfl

theorem run_of_exec (k : Nat) (s : System) (evs : List Event)
    (h : (exec k s evs).run = true) : s.run = true := by
  induction evs generalizing s with
  | nil => exact h
  | cons e evs ih => exact run_of_step k s e (ih (step k s e) h)

theorem ticker_ready_step (k : Nat) (s : System) (e : Event) (evs : List Event) (f : Nat)
    (hinv : WInv s) (hj : ticker_ready s f) (hrun : (step k s e).run = true) :
    ∃ f2, ticker_ready (step k s e) f2 ∧ last_ingested f (e :: evs) = last_ingested f2 evs := by
  have hr := run_of_step k s e hrun
  cases e with
  | capture grab ret frame start_time now1 now2 =>
    cases grab with
    | false =>
      refine ⟨f, ?_, rfl⟩
      simpa [step, capture_frames, hr] using hj
    | true =>
      cases ret with
      | false => simp [step, capture_frames, hr] at hrun
      | true =>
        refine ⟨frame, ?_, rfl⟩
        simp [step, capture_frames, hr, ticker_ready]
  | tick now =>
    refine ⟨f, ?_, rfl⟩
    unfold ticker_ready at hj
    simp only [step, update_frames, hr, if_true, ticker_ready, Bool.false_eq_true, if_false]
    cases hread : s.read
    · simpa [hread] using hj
    · simp only [hread, if_true] at hj
      obtain ⟨n, hn, hf⟩ := hj
      simp only [if_true, hn, hf]
  | advance T =>
    refine ⟨f, ?_, rfl⟩
    simpa [step, update_displays, hr, ticker_ready] using hj
  | present T now key =>
    refine ⟨f, ?_, rfl⟩
    simp only [step, display_frames, hr, if_true, ticker_ready] at hrun ⊢
    exact hj
  | reap =>
    refine ⟨f, ?_, rfl⟩
    have hlt : s.last_display < s.removed + s.frame_buffer.length := hinv.last_lt
    have hle := hinv.head_le
    have hlast : (s.frame_buffer.drop ((if s.updated = true then s.last_display
        else s.removed) - s.removed)).getLast? = s.frame_buffer.getLast? := by
      rw [List.getLast?_drop, if_neg]
      split <;> omega
    simp only [step, cleanup, hr, if_true, cleanup_loop_eq _ s.updated _ _ hle hlt,
      ticker_ready, hlast]
    exact hj

theorem ticker_ready_exec (k : Nat) (s : System) (evs : List Event) (f : Nat)
    (hinv : WInv s) (hj : ticker_ready s f) (hrun : (exec k s evs).run = true) :
    ticker_ready (exec k s evs) (last_ingested f evs) := by
  induction evs generalizing s f with
  | nil => exact hj
  | cons e evs ih =>
    have hrun2 : (step k s e).run = true := run_of_exec k (step k s e) evs hrun
    obtain ⟨f2, h1, h2⟩ := ticker_ready_step k s e evs f hinv hj hrun2
    rw [h2]
    exact ih (step k s e) f2 (winv_step hinv k e) h1 hrun

/-- C9: in every state reached from `main_init` by whole steps of the threads in any
order, an `update_frames` step that runs appends exactly one record, stamped with its clock
read and carrying the payload of the latest record `capture_frames` appended (the initial
frame if there is none); once `run` is cleared it appends nothing. -/
theorem ticker_appends_last_ingested (k : Nat) (displays : List CaptureDisplay) (frame : Nat)
    (now0 now : Int) (evs : List Event) (hne : displays ≠ [])
    (hs : displays.Pairwise (fun a b => a.delay ≤ b.delay)) :
    ((exec k (main_init displays frame now0) evs).run = true →
      (update_frames (exec k (main_init displays frame now0) evs) now).frame_buffer
        = (exec k (main_init displays frame now0) evs).frame_buffer
          ++ [FrameNode.mk (last_ingested frame evs) now]) ∧
    ((exec k (main_init displays frame now0) evs).run = false →
      update_frames (exec k (main_init displays frame now0) evs) now
        = exec k (main_init displays frame now0) evs) := by
  have _ := hs
  constructor
  · intro hrun
    have hinv := winv_exec (winv_main_init displays frame now0 hne) k evs
    have hj := ticker_ready_exec k (main_init displays frame now0) evs frame
      (winv_main_init displays frame now0 hne) (by simp [ticker_ready, main_init]) hrun
    generalize exec k (main_init displays frame now0) evs = s at hrun hinv hj ⊢
    unfold ticker_ready at hj
    simp only [update_frames, hrun, if_true]
    cases hread : s.read
    · simp only [hread, Bool.false_eq_true, if_false] at hj ⊢
      rw [hj]
    · simp only [hread, if_true] at hj ⊢
      obtain ⟨n, hn, hf⟩ := hj
      simp only [hn, hf]
  · intro hrun
    simp only [update_frames, hrun, Bool.false_eq_true, if_false]

/-- Witness for `ticker_appends_last_ingested`: two frames are ingested (payloads 8 and
9) around a ticker step and a cleanup; the next ticker step appends payload 9. -/
theorem ticker_appends_last_ingested_witness :
    two_displays ≠ [] ∧ two_displays.Pairwise (fun a b => a.delay ≤ b.delay) ∧
    (exec 1 (main_init two_displays 7 0)
      [Event.capture true true 8 1 2 2, Event.tick 3, Event.capture true true 9 4 5 5,
        Event.reap]).run = true ∧
    (update_frames (exec 1 (main_init two_displays 7 0)
      [Event.capture true true 8 1 2 2, Event.tick 3, Event.capture true true 9 4 5 5,
        Event.reap]) 6).frame_buffer
      = [FrameNode.mk 7 0, FrameNode.mk 8 1, FrameNode.mk 8 3, FrameNode.mk 9 4,
          FrameNode.mk 9 6] :=
  ⟨by decide, by decide, by decide,
    ((ticker_appends_last_ingested 1 two_displays 7 0 6
      [Event.capture true true 8 1 2 2, Event.tick 3, Event.capture true true 9 4 5 5,
        Event.reap] (by decide) (by decide)).1 (by decide)).trans (by decide)⟩

/-! ## C10: source failure in `capture_frames` -/

/-- C10 (as stated, refuted): an iteration of `capture_frames` in which `capture.grab()`
fails leaves `run` set, and changes nothing else either. -/
theorem grab_failure_keeps_running :
    two_init.run = true ∧ (capture_frames two_init false false 8 1 2 2).run = true ∧
    capture_frames two_init false false 8 1 2 2 = two_init := by
  decide

/-- C10 (amended): an iteration of `capture_frames` clears `run` exactly when the grab
succeeds and the retrieve fails; an iteration whose grab fails changes nothing (it waits
and tries again), and an iteration in which both succeed leaves `run` as it was. -/
theorem capture_frames_run (s : System) (grab ret : Bool) (frame : Nat)
    (start_time now1 now2 : Int) :
    (capture_frames s grab ret frame start_time now1 now2).run
      = (s.run && (!grab || ret)) ∧
    capture_frames s false ret frame start_time now1 now2 = s := by
  unfold capture_frames
  cases hr : s.run <;> cases grab <;> cases ret <;> simp [hr]

/-! ## C11: rate independence -/

theorem same_delay_step (k : Nat) (s : System) (e : Event)
    (h : ∀ a ∈ s.displays, ∀ b ∈ s.displays, a.delay = b.delay → a.frame_node = b.frame_node) :
    ∀ a ∈ (step k s e).displays, ∀ b ∈ (step k s e).displays,
      a.delay = b.delay → a.frame_node = b.frame_node := by
  cases e with
  | capture grab ret frame start_time now1 now2 =>
    have : (capture_frames s grab ret frame start_time now1 now2).displays = s.displays := by
      unfold capture_frames
      cases s.run <;> cases grab <;> cases ret <;> rfl
    simpa only [step, this] using h
  | tick now =>
    have : (update_frames s now).displays = s.displays := by
      unfold update_frames
      cases s.run <;> rfl
    simpa only [step, this] using h
  | advance T =>
    simp only [step, update_displays]
    cases s.run
    · exact h
    · intro a ha b hb hab
      simp only [if_true, List.mem_map] at ha hb
      obtain ⟨a0, ha0, rfl⟩ := ha
      obtain ⟨b0, hb0, rfl⟩ := hb
      have hd : a0.delay = b0.delay := hab
      have hp := h a0 ha0 b0 hb0 hd
      simp only [advance_display, advance_pos, hd, hp]
  | present T now key =>
    simp only [step, display_frames]
    cases s.run
    · exact h
    · have hc := display_loop_core k s.displays.length s.end_pos T now 0 s.displays
        (s.last_display, s.updated, s.shown)
      intro a ha b hb hab
      obtain ⟨a0, ha0, hda, hpa⟩ := core_mem hc a ha
      obtain ⟨b0, hb0, hdb, hpb⟩ := core_mem hc b hb
      rw [← hpa, ← hpb]
      exact h a0 ha0 b0 hb0 (by rw [hda, hdb]; exact hab)
  | reap =>
    have : (cleanup s).displays = s.displays := by
      unfold cleanup
      cases s.run <;> rfl
    simpa only [step, this] using h

theorem same_delay_exec (k : Nat) (s : System) (evs : List Event)
    (h : ∀ a ∈ s.displays, ∀ b ∈ s.displays, a.delay = b.delay → a.frame_node = b.frame_node) :
    ∀ a ∈ (exec k s evs).displays, ∀ b ∈ (exec k s evs).displays,
      a.delay = b.delay → a.frame_node = b.frame_node := by
  induction evs generalizing s with
  | nil => exact h
  | cons e evs ih => exact ih (step k s e) (same_delay_step k s e h)

/-- C11: in every state reached from `main_init` (all cursors on the head of the log) by
whole steps of the threads, in particular after every advance pass, any two displays with
the same delay have their cursors on the same record, whatever their refresh periods; and
the cursor an advance pass gives a display is the same when the display's refresh period
and last publish time are replaced by any others. -/
theorem rate_independence (k : Nat) (displays : List CaptureDisplay) (frame : Nat)
    (now : Int) (evs : List Event) :
    (∀ a ∈ (exec k (main_init displays frame now) evs).displays,
      ∀ b ∈ (exec k (main_init displays frame now) evs).displays,
        a.delay = b.delay → a.frame_node = b.frame_node) ∧
    (∀ (removed : Nat) (buf : List FrameNode) (T : Int) (d : CaptureDisplay) (p l : Int),
      advance_pos k removed buf T { d with frame_refresh_period := p, last_update_time := l }
        = advance_pos k removed buf T d) := by
  refine ⟨same_delay_exec k _ evs ?_, fun _ _ _ _ _ _ => rfl⟩
  intro a ha b hb _
  simp only [main_init, List.mem_map] at ha hb
  obtain ⟨a0, _, rfl⟩ := ha
  obtain ⟨b0, _, rfl⟩ := hb
  rfl

/-- Witness for `rate_independence`: two displays of delay 5 with the refresh periods 2
and 4, through a publish that shows only the first of them, appends and two passes. -/
theorem rate_independence_witness :
    (∀ a ∈ (exec 1 (main_init twin_displays 7 0)
        [Event.present 3 (fun _ => 3) 0, Event.tick 10, Event.tick 20, Event.advance 22,
          Event.tick 30, Event.advance 40]).displays,
      ∀ b ∈ (exec 1 (main_init twin_displays 7 0)
        [Event.present 3 (fun _ => 3) 0, Event.tick 10, Event.tick 20, Event.advance 22,
          Event.tick 30, Event.advance 40]).displays,
        a.delay = b.delay → a.frame_node = b.frame_node) ∧
    (exec 1 (main_init twin_displays 7 0)
        [Event.present 3 (fun _ => 3) 0, Event.tick 10, Event.tick 20, Event.advance 22,
          Event.tick 30, Event.advance 40]).displays
      = [CaptureDisplay.mk "a" 5 0 2 3 3, CaptureDisplay.mk "b" 5 0 4 0 3] :=
  ⟨(rate_independence 1 twin_displays 7 0
      [Event.present 3 (fun _ => 3) 0, Event.tick 10, Event.tick 20, Event.advance 22,
        Event.tick 30, Event.advance 40]).1, by decide⟩

/-! ## Records in the log -/

theorem node_at_some (removed : Nat) (buf : List FrameNode) (i : Nat) (h1 : removed ≤ i)
    (h2 : i < removed + buf.length) : ∃ n, node_at removed buf i = some n := by
  have h3 : ¬ i < removed := by omega
  have h4 : i - removed < buf.length := by omega
  simp only [node_at, h3, if_false]
  exact ⟨_, List.getElem?_eq_getElem h4⟩

/-! ## C13: the order of the cursors -/

/-- C13 (the code at the failing input): with the sorted displays `main` builds from the
delays 1 s and 1e10 s and a nanosecond clock, the sum `time_stamp + delay` of the second
display overflows 64 bits, and the pass at 30 ms leaves the cursors on records 0 and 2:
the last display, of the largest delay, is ahead of the first, and the poll that follows
stores in `last_display` a record after the first display's cursor. -/
theorem cursor_order_broken_on_overflow :
    far_displays ≠ [] ∧ far_displays.Pairwise (fun a b => a.delay ≤ b.delay) ∧
    (exec 1000 (main_init far_displays 7 0)
      [Event.tick 10000000, Event.tick 20000000, Event.advance 30000000]).displays.map
        CaptureDisplay.frame_node = [0, 2] ∧
    ¬ (exec 1000 (main_init far_displays 7 0)
      [Event.tick 10000000, Event.tick 20000000, Event.advance 30000000]).displays.Pairwise
        (fun a b => b.frame_node ≤ a.frame_node) ∧
    (exec 1000 (main_init far_displays 7 0)
      [Event.tick 10000000, Event.tick 20000000, Event.advance 30000000,
        Event.present 40000000 (fun _ => 40000001) 0]).last_display = 2 ∧
    ¬ ∀ d ∈ (exec 1000 (main_init far_displays 7 0)
      [Event.tick 10000000, Event.tick 20000000, Event.advance 30000000,
        Event.present 40000000 (fun _ => 40000001) 0]).displays,
      (exec 1000 (main_init far_displays 7 0)
        [Event.tick 10000000, Event.tick 20000000, Event.advance 30000000,
          Event.present 40000000 (fun _ => 40000001) 0]).last_display ≤ d.frame_node := by
  decide

/-! ## C14: the postcondition of an advance pass -/

/-- C14 (the code at the failing input): for the display of delay 1e10 s on the head of the
log `[0, 10 ms]`, the pass at 12 ms moves the cursor to record 1 although record 0 has
`time_stamp + D ≥ T`: with a nanosecond clock the 64-bit sum `time_stamp + D` is negative. -/
theorem advance_overshoots_on_overflow :
    (exec 1000 (main_init far_displays 7 0) [Event.tick 10000000]).displays[1]?
      = some (CaptureDisplay.mk "10000000000.000000" 10000000000000004 10000000000000000
          33333 0 0) ∧
    (update_displays 1000 (exec 1000 (main_init far_displays 7 0) [Event.tick 10000000])
      12000000).displays[1]?
      = some (CaptureDisplay.mk "10000000000.000000" 10000000000000004 10000000000000000
          33333 0 1) ∧
    (exec 1000 (main_init far_displays 7 0) [Event.tick 10000000]).node 0
      = some (FrameNode.mk 7 0) ∧
    ¬ ((FrameNode.mk 7 0).time_stamp + ((1000 : Nat) : Int) * 10000000000000004 < 12000000) ∧
    wrap64 ((FrameNode.mk 7 0).time_stamp + wrap64 (((1000 : Nat) : Int) * 10000000000000004))
      = -8446744073709547616 := by
  decide

/-! ## C15: the log is never empty -/

/-- C15: in every state reached from `main_init` by whole steps of the threads, the log
holds at least one record, so `frame_buffer.front()` and `frame_buffer.back()` are
defined; the record `last_display` points to is in the log; and the inner loop of
`cleanup` stops on that record if `updated` is set (at once otherwise), having removed only
the records before it and leaving a log that is not empty. -/
theorem log_never_empty (k : Nat) (displays : List CaptureDisplay) (frame : Nat) (now : Int)
    (evs : List Event) (hne : displays ≠ [])
    (hs : displays.Pairwise (fun a b => a.delay ≤ b.delay)) :
    (exec k (main_init displays frame now) evs).frame_buffer ≠ [] ∧
    (∃ n, (exec k (main_init displays frame now) evs).frame_buffer.head? = some n) ∧
    (∃ n, (exec k (main_init displays frame now) evs).frame_buffer.getLast? = some n) ∧
    (exec k (main_init displays frame now) evs).removed
      ≤ (exec k (main_init displays frame now) evs).last_display ∧
    (exec k (main_init displays frame now) evs).last_display
      < (exec k (main_init displays frame now) evs).end_pos ∧
    (∃ n, (exec k (main_init displays frame now) evs).node
      (exec k (main_init displays frame now) evs).last_display = some n) ∧
    (∃ r b, cleanup_loop (exec k (main_init displays frame now) evs).last_display
        (exec k (main_init displays frame now) evs).updated
        (exec k (main_init displays frame now) evs).removed
        (exec k (main_init displays frame now) evs).frame_buffer = (r, b) ∧
      b ≠ [] ∧
      r = (if (exec k (main_init displays frame now) evs).updated = true
        then (exec k (main_init displays frame now) evs).last_display
        else (exec k (main_init displays frame now) evs).removed) ∧
      b = (exec k (main_init displays frame now) evs).frame_buffer.drop
        (r - (exec k (main_init displays frame now) evs).removed)) := by
  have _ := hs
  have hinv := winv_exec (winv_main_init displays frame now hne) k evs
  generalize exec k (main_init displays frame now) evs = s at hinv ⊢
  have hlt : s.last_display < s.removed + s.frame_buffer.length := hinv.last_lt
  have hle := hinv.head_le
  have hbuf : s.frame_buffer ≠ [] := by
    intro h
    rw [h] at hlt
    simp at hlt
    omega
  refine ⟨hbuf, ?_, ?_, hle, hlt, node_at_some _ _ _ hle hlt, ?_⟩
  · cases hb : s.frame_buffer with
    | nil => exact absurd hb hbuf
    | cons n rest => exact ⟨n, rfl⟩
  · exact ⟨_, List.getLast?_eq_getLast _ hbuf⟩
  · refine ⟨_, _, cleanup_loop_eq _ s.updated _ _ hle hlt, ?_, rfl, rfl⟩
    intro h
    have h3 := congrArg List.length h
    simp only [List.length_drop, List.length_nil] at h3
    split at h3 <;> omega

/-- Witness for `log_never_empty`: after a publish of both displays on record 1, the
cleanup loop removes record 0 and stops with one record left. -/
theorem log_never_empty_witness :
    two_displays ≠ [] ∧ two_displays.Pairwise (fun a b => a.delay ≤ b.delay) ∧
    (exec 1 (main_init two_displays 7 0)
      [Event.tick 10, Event.advance 12, Event.present 13 (fun _ => 13) 0, Event.reap]
      ).frame_buffer ≠ [] ∧
    (exec 1 (main_init two_displays 7 0)
      [Event.tick 10, Event.advance 12, Event.present 13 (fun _ => 13) 0, Event.reap]
      ).frame_buffer = [FrameNode.mk 7 10] :=
  ⟨by decide, by decide,
    (log_never_empty 1 two_displays 7 0
      [Event.tick 10, Event.advance 12, Event.present 13 (fun _ => 13) 0, Event.reap]
      (by decide) (by decide)).1,
    by decide⟩

end DelayCli
